import Mathlib

/-!
Shallow embedding of `hash-orbit` (src/src/index.ts): a consistent-hashing
ring.  The JavaScript `Map<number, string>` is modelled as an
insertion-ordered association list `List (Nat × String)`; `Map.set`
overwrites in place keeping order, `Map.delete` filters, `Map.get` finds the
first matching key.  The external 32-bit hash function (`hash32` from
`murmur-hash`, out of scope per the spec) is an explicit parameter
`hash : String → Nat`.  Methods that `throw` return `Except String`.
-/

/-- JS `Map.set`: overwrite the entry in place if the key exists, else append. -/
def mapSet (m : List (Nat × String)) (k : Nat) (v : String) : List (Nat × String) :=
  if m.any (fun p => p.1 == k) then
    m.map (fun p => if p.1 == k then (k, v) else p)
  else
    m ++ [(k, v)]

/-- JS `Map.delete`: remove the entry with the given key. -/
def mapDelete (m : List (Nat × String)) (k : Nat) : List (Nat × String) :=
  m.filter (fun p => p.1 != k)

/-- JS `Map.get`: value at a key, `none` when absent. -/
def mapGet (m : List (Nat × String)) (k : Nat) : Option String :=
  (m.find? (fun p => p.1 == k)).map Prod.snd

/-- The ring state: `ring` is the entry `Map`, `sortedKeys` the sorted index,
`replicas` the per-node virtual-node count (a JS number; may be ≤ 0). -/
structure HashOrbit where
  ring : List (Nat × String)
  sortedKeys : List Nat
  replicas : Int
deriving Repr, DecidableEq

/-- The constructor: `replicas = options.replicas ?? 150`, empty ring. -/
def HashOrbit.new (replicas : Option Int) : HashOrbit :=
  { ring := [], sortedKeys := [], replicas := replicas.getD 150 }

/-- Validation `validateIdentifier(value, name)`: JS `!value` is true exactly for the
empty string; then the length gate. -/
def validateIdentifier (value name : String) : Except String Unit :=
  if value = "" then
    .error (name ++ " cannot be empty")
  else if value.length > 1000 then
    .error (name ++ " exceeds maximum length of 1000 characters")
  else
    .ok ()

/-- The virtual-node key `"<node>:<i>"`. -/
def vkey (node : String) (i : Nat) : String :=
  node ++ ":" ++ toString i

/-- The positions written by `add`/`remove`: `hash("<node>:<i>")` for
`i = 0 .. replicas-1` (an empty list when `replicas ≤ 0`, as the JS `for`
loop body never runs). -/
def positionsOf (hash : String → Nat) (node : String) (replicas : Int) : List Nat :=
  (List.range replicas.toNat).map (fun i => hash (vkey node i))

/-- Rebuild of the sorted index: `[...ring.keys()].sort((a, b) => a - b)`,
an ascending stable sort of the Map's keys. -/
def sortKeys (ring : List (Nat × String)) : List Nat :=
  (ring.map Prod.fst).insertionSort (· ≤ ·)

/-- Method `add(node)`: validate, write every virtual position, rebuild the index. -/
def HashOrbit.add (hash : String → Nat) (h : HashOrbit) (node : String) :
    Except String HashOrbit := do
  validateIdentifier node "Node identifier"
  let ring := (positionsOf hash node h.replicas).foldl (fun m p => mapSet m p node) h.ring
  pure { h with ring := ring, sortedKeys := sortKeys ring }

/-- Method `remove(node)`: validate, delete every virtual position, rebuild the index. -/
def HashOrbit.remove (hash : String → Nat) (h : HashOrbit) (node : String) :
    Except String HashOrbit := do
  validateIdentifier node "Node identifier"
  let ring := (positionsOf hash node h.replicas).foldl (fun m p => mapDelete m p) h.ring
  pure { h with ring := ring, sortedKeys := sortKeys ring }

/-- The `while (left < right)` loop of `binarySearch`. -/
def binarySearchLoop (keys : List Nat) (target : Nat) (left right : Nat) : Nat :=
  if _hlt : left < right then
    let mid := (left + right) / 2
    if keys.getD mid 0 < target then
      binarySearchLoop keys target (mid + 1) right
    else
      binarySearchLoop keys target left mid
  else
    left
termination_by right - left
decreasing_by
  · omega
  · omega

/-- Method `binarySearch(target)`: lower-bound search over `sortedKeys`. -/
def binarySearch (keys : List Nat) (target : Nat) : Nat :=
  binarySearchLoop keys target 0 keys.length

/-- Method `get(key)`: validate, `undefined` on an empty ring, otherwise the entry
at the lower-bound index, wrapped to 0 past the end. -/
def HashOrbit.get (hash : String → Nat) (h : HashOrbit) (key : String) :
    Except String (Option String) := do
  validateIdentifier key "Key"
  if h.ring.length = 0 then
    pure none
  else
    let position := hash key
    let idx := binarySearch h.sortedKeys position
    let idx := if idx ≥ h.sortedKeys.length then 0 else idx
    pure (mapGet h.ring (h.sortedKeys.getD idx 0))

/-- The `for` loop of `getN`: `fuel` counts the remaining iterations of
`i < sortedKeys.length`; the `result.length < count` conjunct is re-checked
each iteration; `idx` wraps to 0 when past the end, then the entry is read
and `idx` incremented.  JS `if (node && !seen.has(node))` is true exactly
for a present, non-empty, unseen node. -/
def getNLoop (ring : List (Nat × String)) (keys : List Nat) (count : Int)
    (idx : Nat) (seen : List String) (result : List String) : Nat → List String
  | 0 => result
  | fuel + 1 =>
    if (result.length : Int) < count then
      let idx' := if idx ≥ keys.length then 0 else idx
      match mapGet ring (keys.getD idx' 0) with
      | some node =>
        if node ≠ "" ∧ node ∉ seen then
          getNLoop ring keys count (idx' + 1) (node :: seen) (result ++ [node]) fuel
        else
          getNLoop ring keys count (idx' + 1) seen result fuel
      | none => getNLoop ring keys count (idx' + 1) seen result fuel
    else
      result

/-- Method `getN(key, count)`: validate, empty result on an empty ring or
`count <= 0`, otherwise walk the ring from the lower-bound index collecting
unique nodes. -/
def HashOrbit.getN (hash : String → Nat) (h : HashOrbit) (key : String) (count : Int) :
    Except String (List String) := do
  validateIdentifier key "Key"
  if h.ring.length = 0 ∨ count ≤ 0 then
    pure []
  else
    let position := hash key
    let idx := binarySearch h.sortedKeys position
    pure (getNLoop h.ring h.sortedKeys count idx [] [] h.sortedKeys.length)

/-- JS `new Set(iterable)` iteration order: first occurrence kept. -/
def dedupFirst (l : List String) : List String :=
  l.foldl (fun acc v => if v ∈ acc then acc else acc ++ [v]) []

/-- The `nodes` getter: `Array.from(new Set(ring.values()))`. -/
def HashOrbit.nodes (h : HashOrbit) : List String :=
  dedupFirst (h.ring.map Prod.snd)

/-- The `size` getter: number of unique nodes. -/
def HashOrbit.size (h : HashOrbit) : Nat :=
  h.nodes.length

/-- The serialized representation `{ nodes, replicas }`. -/
structure RingJSON where
  nodes : List String
  replicas : Int
deriving Repr, DecidableEq

/-- Method `toJSON()`. -/
def HashOrbit.toJSON (h : HashOrbit) : RingJSON :=
  { nodes := h.nodes, replicas := h.replicas }

/-- Method `fromJSON(json)`: fresh ring with the given replicas, then `add` each
node in sequence (an `add` error propagates). -/
def HashOrbit.fromJSON (hash : String → Nat) (json : RingJSON) :
    Except String HashOrbit :=
  json.nodes.foldlM (fun r n => HashOrbit.add hash r n)
    (HashOrbit.new (some json.replicas))

/-- A valid identifier (node or key): non-empty, at most 1000 characters. -/
def ValidId (s : String) : Prop :=
  s ≠ "" ∧ s.length ≤ 1000

instance : DecidablePred ValidId := fun s => by
  unfold ValidId
  infer_instance

/-- Well-formedness of a ring state, maintained by every operation: the
sorted index is exactly the rebuilt sort of the entry keys, the entry keys
are distinct (a `Map` invariant), and every stored node identifier passed
validation. -/
def WF (h : HashOrbit) : Prop :=
  h.sortedKeys = sortKeys h.ring ∧
  (h.ring.map Prod.fst).Nodup ∧
  ∀ pv ∈ h.ring, ValidId pv.2

instance : DecidablePred WF := fun h => by
  unfold WF
  infer_instance

/-- Ring states reachable from the constructor by successful `add`/`remove`
calls. -/
inductive Reachable (hash : String → Nat) : HashOrbit → Prop
  | new (replicas : Option Int) : Reachable hash (HashOrbit.new replicas)
  | add {h h' : HashOrbit} (node : String) :
      Reachable hash h → HashOrbit.add hash h node = .ok h' → Reachable hash h'
  | remove {h h' : HashOrbit} (node : String) :
      Reachable hash h → HashOrbit.remove hash h node = .ok h' → Reachable hash h'

/-- The spec's lower bound: index of the first entry whose value is
`≥ target` (`length` when none is). -/
def lowerBoundSpec (keys : List Nat) (target : Nat) : Nat :=
  keys.findIdx (fun k => target ≤ k)

/-! ### Basic lemmas about the Map model -/

theorem mapGet_eq_some_mem {m : List (Nat × String)} {k : Nat} {v : String}
    (h : mapGet m k = some v) : (k, v) ∈ m := by
  unfold mapGet at h
  cases hf : m.find? (fun p => p.1 == k) with
  | none => simp [hf] at h
  | some p =>
    simp only [hf, Option.map_some', Option.some.injEq] at h
    have hp := List.find?_some hf
    have hmem := List.mem_of_find?_eq_some hf
    simp only [beq_iff_eq] at hp
    have : p = (k, v) := by
      cases p with
      | mk a b => simp only at hp h; subst hp; subst h; rfl
    rwa [this] at hmem

theorem mapGet_isSome_of_mem {m : List (Nat × String)} {k : Nat} {v : String}
    (h : (k, v) ∈ m) : ∃ w, mapGet m k = some w := by
  unfold mapGet
  cases hf : m.find? (fun p => p.1 == k) with
  | none =>
    have := List.find?_eq_none.mp hf (k, v) h
    simp at this
  | some p => exact ⟨p.2, rfl⟩

theorem mapGet_mem_snd {m : List (Nat × String)} {k : Nat} {v : String}
    (h : mapGet m k = some v) : v ∈ m.map Prod.snd :=
  List.mem_map.mpr ⟨(k, v), mapGet_eq_some_mem h, rfl⟩

theorem mapGet_eq_none_of_not_mem {m : List (Nat × String)} {k : Nat}
    (h : k ∉ m.map Prod.fst) : mapGet m k = none := by
  unfold mapGet
  cases hf : m.find? (fun p => p.1 == k) with
  | none => rfl
  | some p =>
    have hp := List.find?_some hf
    have hmem := List.mem_of_find?_eq_some hf
    simp only [beq_iff_eq] at hp
    exact absurd (List.mem_map.mpr ⟨p, hmem, hp⟩) h

theorem mapGet_of_mem_nodup {m : List (Nat × String)} {k : Nat} {v : String}
    (hnd : (m.map Prod.fst).Nodup) (h : (k, v) ∈ m) : mapGet m k = some v := by
  induction m with
  | nil => cases h
  | cons p m ih =>
    simp only [List.map_cons, List.nodup_cons] at hnd
    rcases List.mem_cons.mp h with rfl | hm
    · unfold mapGet
      simp [List.find?_cons_of_pos]
    · have hne : p.1 ≠ k := by
        intro he
        exact hnd.1 (he ▸ List.mem_map.mpr ⟨(k, v), hm, rfl⟩)
      unfold mapGet at *
      rw [List.find?_cons_of_neg]
      · exact ih hnd.2 hm
      · simp [hne]

theorem mem_fst_of_mapGet_some {m : List (Nat × String)} {k : Nat} {v : String}
    (h : mapGet m k = some v) : k ∈ m.map Prod.fst :=
  List.mem_map.mpr ⟨(k, v), mapGet_eq_some_mem h, rfl⟩

/-! ### mapSet lemmas -/

theorem fst_mapSet (m : List (Nat × String)) (k : Nat) (v : String) :
    ∀ q, q ∈ (mapSet m k v).map Prod.fst ↔ q = k ∨ q ∈ m.map Prod.fst := by
  intro q
  unfold mapSet
  split
  · rename_i hany
    simp only [List.any_eq_true, beq_iff_eq] at hany
    constructor
    · intro hq
      rcases List.mem_map.mp hq with ⟨p, hp, rfl⟩
      rcases List.mem_map.mp hp with ⟨p0, hp0, rfl⟩
      by_cases he : p0.1 = k
      · simp only [he, if_pos, beq_self_eq_true] at *
        left; simp [he]
      · right
        have : (if p0.1 == k then (k, v) else p0) = p0 := by simp [he]
        rw [this]
        exact List.mem_map.mpr ⟨p0, hp0, rfl⟩
    · intro hq
      rcases hq with rfl | hq
      · rcases hany with ⟨p0, hp0, he⟩
        refine List.mem_map.mpr ⟨(q, v), ?_, rfl⟩
        refine List.mem_map.mpr ⟨p0, hp0, ?_⟩
        simp [he]
      · rcases List.mem_map.mp hq with ⟨p0, hp0, rfl⟩
        by_cases he : p0.1 = k
        · refine List.mem_map.mpr ⟨(k, v), ?_, he.symm⟩
          exact List.mem_map.mpr ⟨p0, hp0, by simp [he]⟩
        · refine List.mem_map.mpr ⟨p0, ?_, rfl⟩
          exact List.mem_map.mpr ⟨p0, hp0, by simp [he]⟩
  · rename_i hany
    simp [List.mem_map, or_comm]

theorem nodup_fst_mapSet {m : List (Nat × String)} (k : Nat) (v : String)
    (hnd : (m.map Prod.fst).Nodup) : ((mapSet m k v).map Prod.fst).Nodup := by
  unfold mapSet
  split
  · rename_i hany
    have : (m.map (fun p => if p.1 == k then (k, v) else p)).map Prod.fst
        = m.map Prod.fst := by
      rw [List.map_map]
      apply List.map_congr_left
      intro p _
      by_cases he : p.1 = k <;> simp [he]
    rw [this]
    exact hnd
  · rename_i hany
    simp only [List.any_eq_true, beq_iff_eq] at hany
    push_neg at hany
    rw [List.map_append]
    simp only [List.map_cons, List.map_nil]
    rw [List.nodup_append]
    refine ⟨hnd, List.nodup_singleton k, ?_⟩
    intro q hq
    rcases List.mem_map.mp hq with ⟨p, hp, rfl⟩
    simp only [List.mem_singleton]
    intro he
    exact (hany p hp) he

theorem snd_mapSet_subset {m : List (Nat × String)} {k : Nat} {v w : String}
    (h : w ∈ (mapSet m k v).map Prod.snd) : w = v ∨ w ∈ m.map Prod.snd := by
  unfold mapSet at h
  split at h
  · rcases List.mem_map.mp h with ⟨p, hp, rfl⟩
    rcases List.mem_map.mp hp with ⟨p0, hp0, rfl⟩
    by_cases he : p0.1 = k
    · simp [he]
    · right
      have : (if p0.1 == k then (k, v) else p0) = p0 := by simp [he]
      rw [this]
      exact List.mem_map.mpr ⟨p0, hp0, rfl⟩
  · rw [List.map_append] at h
    rcases List.mem_append.mp h with hl | hr
    · right; exact hl
    · left; simpa using hr

theorem mapGet_mapSet_self (m : List (Nat × String)) (k : Nat) (v : String) :
    mapGet (mapSet m k v) k = some v := by
  unfold mapSet
  split
  · rename_i hany
    simp only [List.any_eq_true, beq_iff_eq] at hany
    unfold mapGet
    induction m with
    | nil => simp at hany
    | cons p m ih =>
      by_cases he : p.1 = k
      · simp [List.find?_cons_of_pos, he]
      · rw [List.map_cons, List.find?_cons_of_neg]
        · rcases hany with ⟨p0, hp0, hp0e⟩
          rcases List.mem_cons.mp hp0 with rfl | hm
          · exact absurd hp0e he
          · exact ih ⟨p0, hm, hp0e⟩
        · simp [he]
  · unfold mapGet
    rw [List.find?_append]
    rename_i hany
    have : m.find? (fun p => p.1 == k) = none := by
      rw [List.find?_eq_none]
      intro p hp
      simp only [List.any_eq_true] at hany
      push_neg at hany
      simpa using hany p hp
    simp [this]

theorem mapGet_mapSet_ne (m : List (Nat × String)) {k q : Nat} (v : String)
    (hne : q ≠ k) : mapGet (mapSet m k v) q = mapGet m q := by
  unfold mapSet
  split
  · rename_i hany
    clear hany
    unfold mapGet
    congr 1
    induction m with
    | nil => rfl
    | cons p m ih =>
      simp only [List.map_cons]
      by_cases he : p.1 = k
      · rw [List.find?_cons_of_neg, List.find?_cons_of_neg]
        · exact ih
        · simp [he, Ne.symm hne]
        · simp [he, Ne.symm hne]
      · rw [if_neg (by simp [he])]
        by_cases hq : p.1 = q
        · rw [List.find?_cons_of_pos, List.find?_cons_of_pos] <;> simp [hq]
        · rw [List.find?_cons_of_neg, List.find?_cons_of_neg]
          · exact ih
          · simp [hq]
          · simp [hq]
  · unfold mapGet
    rw [List.find?_append]
    have : List.find? (fun p => p.1 == q) [(k, v)] = none := by
      simp [Ne.symm hne]
    cases hf : m.find? (fun p => p.1 == q) <;> simp [hf, this]

/-! ### mapDelete lemmas -/

theorem mapGet_mapDelete_self (m : List (Nat × String)) (k : Nat) :
    mapGet (mapDelete m k) k = none := by
  apply mapGet_eq_none_of_not_mem
  intro hk
  rcases List.mem_map.mp hk with ⟨p, hp, rfl⟩
  have := List.of_mem_filter hp
  simp at this

theorem mapGet_mapDelete_ne (m : List (Nat × String)) {k q : Nat}
    (hne : q ≠ k) : mapGet (mapDelete m k) q = mapGet m q := by
  unfold mapGet mapDelete
  congr 1
  induction m with
  | nil => rfl
  | cons p m ih =>
    by_cases he : p.1 = k
    · rw [List.filter_cons_of_neg (by simp [he]), List.find?_cons_of_neg]
      · exact ih
      · simp [he, Ne.symm hne]
    · rw [List.filter_cons_of_pos (by simp [he])]
      by_cases hq : p.1 = q
      · rw [List.find?_cons_of_pos _ (by simp [hq]), List.find?_cons_of_pos _ (by simp [hq])]
      · rw [List.find?_cons_of_neg _ (by simp [hq]), List.find?_cons_of_neg _ (by simp [hq])]
        exact ih

theorem fst_mapDelete (m : List (Nat × String)) (k : Nat) :
    ∀ q, q ∈ (mapDelete m k).map Prod.fst ↔ q ≠ k ∧ q ∈ m.map Prod.fst := by
  intro q
  unfold mapDelete
  constructor
  · intro hq
    rcases List.mem_map.mp hq with ⟨p, hp, rfl⟩
    have h1 := List.of_mem_filter hp
    have h2 := List.mem_of_mem_filter hp
    simp only [bne_iff_ne, ne_eq] at h1
    exact ⟨h1, List.mem_map.mpr ⟨p, h2, rfl⟩⟩
  · intro ⟨hne, hq⟩
    rcases List.mem_map.mp hq with ⟨p, hp, rfl⟩
    refine List.mem_map.mpr ⟨p, List.mem_filter.mpr ⟨hp, by simp [hne]⟩, rfl⟩

theorem fst_filter_ne (m : List (Nat × String)) (k : Nat) :
    (m.filter (fun p => p.1 != k)).map Prod.fst
      = (m.map Prod.fst).filter (fun q => q != k) := by
  induction m with
  | nil => rfl
  | cons p m ih =>
    by_cases he : p.1 = k
    · rw [List.filter_cons_of_neg (by simp [he]), List.map_cons,
        List.filter_cons_of_neg (by simp [he])]
      exact ih
    · rw [List.filter_cons_of_pos (by simp [he]), List.map_cons, List.map_cons,
        List.filter_cons_of_pos (by simp [he])]
      rw [ih]

theorem nodup_fst_mapDelete {m : List (Nat × String)} (k : Nat)
    (hnd : (m.map Prod.fst).Nodup) : ((mapDelete m k).map Prod.fst).Nodup := by
  unfold mapDelete
  rw [fst_filter_ne]
  exact hnd.filter _

theorem snd_mapDelete_subset {m : List (Nat × String)} {k : Nat} {w : String}
    (h : w ∈ (mapDelete m k).map Prod.snd) : w ∈ m.map Prod.snd := by
  rcases List.mem_map.mp h with ⟨p, hp, rfl⟩
  exact List.mem_map.mpr ⟨p, List.mem_of_mem_filter hp, rfl⟩

/-! ### Fold lemmas: the bodies of `add` and `remove` -/

theorem mapGet_foldl_set (ps : List Nat) (v : String) :
    ∀ (m : List (Nat × String)) (q : Nat),
      mapGet (ps.foldl (fun m p => mapSet m p v) m) q
        = if q ∈ ps then some v else mapGet m q := by
  induction ps with
  | nil => intro m q; simp
  | cons p ps ih =>
    intro m q
    rw [List.foldl_cons, ih]
    by_cases hq : q ∈ ps
    · simp [hq, List.mem_cons]
    · by_cases he : q = p
      · subst he
        simp [hq, mapGet_mapSet_self]
      · simp [hq, he, mapGet_mapSet_ne m v he]

theorem fst_foldl_set (ps : List Nat) (v : String) :
    ∀ (m : List (Nat × String)) (q : Nat),
      q ∈ ((ps.foldl (fun m p => mapSet m p v) m).map Prod.fst)
        ↔ q ∈ ps ∨ q ∈ m.map Prod.fst := by
  induction ps with
  | nil => intro m q; simp
  | cons p ps ih =>
    intro m q
    rw [List.foldl_cons, ih, fst_mapSet]
    simp [List.mem_cons]
    tauto

theorem nodup_fst_foldl_set (ps : List Nat) (v : String) :
    ∀ (m : List (Nat × String)), (m.map Prod.fst).Nodup →
      ((ps.foldl (fun m p => mapSet m p v) m).map Prod.fst).Nodup := by
  induction ps with
  | nil => intro m hm; exact hm
  | cons p ps ih =>
    intro m hm
    rw [List.foldl_cons]
    exact ih _ (nodup_fst_mapSet p v hm)

theorem snd_foldl_set_subset (ps : List Nat) (v : String) :
    ∀ (m : List (Nat × String)) (w : String),
      w ∈ ((ps.foldl (fun m p => mapSet m p v) m).map Prod.snd)
        → w = v ∨ w ∈ m.map Prod.snd := by
  induction ps with
  | nil => intro m w hw; exact Or.inr hw
  | cons p ps ih =>
    intro m w hw
    rcases ih _ w hw with hv | hm
    · exact Or.inl hv
    · rcases snd_mapSet_subset hm with hv | hm'
      · exact Or.inl hv
      · exact Or.inr hm'

theorem mapGet_foldl_del (ps : List Nat) :
    ∀ (m : List (Nat × String)) (q : Nat),
      mapGet (ps.foldl (fun m p => mapDelete m p) m) q
        = if q ∈ ps then none else mapGet m q := by
  induction ps with
  | nil => intro m q; simp
  | cons p ps ih =>
    intro m q
    rw [List.foldl_cons, ih]
    by_cases hq : q ∈ ps
    · simp [hq, List.mem_cons]
    · by_cases he : q = p
      · subst he
        simp [hq, mapGet_mapDelete_self]
      · simp [hq, he, mapGet_mapDelete_ne m he]

theorem fst_foldl_del (ps : List Nat) :
    ∀ (m : List (Nat × String)) (q : Nat),
      q ∈ ((ps.foldl (fun m p => mapDelete m p) m).map Prod.fst)
        ↔ q ∉ ps ∧ q ∈ m.map Prod.fst := by
  induction ps with
  | nil => intro m q; simp
  | cons p ps ih =>
    intro m q
    rw [List.foldl_cons, ih, fst_mapDelete]
    simp [List.mem_cons]
    tauto

theorem nodup_fst_foldl_del (ps : List Nat) :
    ∀ (m : List (Nat × String)), (m.map Prod.fst).Nodup →
      ((ps.foldl (fun m p => mapDelete m p) m).map Prod.fst).Nodup := by
  induction ps with
  | nil => intro m hm; exact hm
  | cons p ps ih =>
    intro m hm
    rw [List.foldl_cons]
    exact ih _ (nodup_fst_mapDelete p hm)

theorem snd_foldl_del_subset (ps : List Nat) :
    ∀ (m : List (Nat × String)) (w : String),
      w ∈ ((ps.foldl (fun m p => mapDelete m p) m).map Prod.snd)
        → w ∈ m.map Prod.snd := by
  induction ps with
  | nil => intro m w hw; exact hw
  | cons p ps ih =>
    intro m w hw
    exact snd_mapDelete_subset (ih _ w hw)

/-! ### Validation and operation unfoldings -/

theorem validateIdentifier_eq_ok {s : String} (name : String) (hv : ValidId s) :
    validateIdentifier s name = .ok () := by
  unfold validateIdentifier
  rw [if_neg hv.1, if_neg (Nat.not_lt.mpr hv.2)]

theorem validateIdentifier_empty (name : String) :
    validateIdentifier "" name = .error (name ++ " cannot be empty") := by
  unfold validateIdentifier
  rw [if_pos rfl]

theorem validateIdentifier_long {s : String} (name : String) (h1 : s ≠ "")
    (h2 : s.length > 1000) :
    validateIdentifier s name
      = .error (name ++ " exceeds maximum length of 1000 characters") := by
  unfold validateIdentifier
  rw [if_neg h1, if_pos h2]

/-- The ring after the write loop of `add`. -/
def ringAfterAdd (hash : String → Nat) (h : HashOrbit) (node : String) :
    List (Nat × String) :=
  (positionsOf hash node h.replicas).foldl (fun m p => mapSet m p node) h.ring

/-- The ring after the delete loop of `remove`. -/
def ringAfterRemove (hash : String → Nat) (h : HashOrbit) (node : String) :
    List (Nat × String) :=
  (positionsOf hash node h.replicas).foldl (fun m p => mapDelete m p) h.ring

theorem add_def (hash : String → Nat) (h : HashOrbit) (node : String) :
    HashOrbit.add hash h node =
      match validateIdentifier node "Node identifier" with
      | .error e => .error e
      | .ok _ => .ok { ring := ringAfterAdd hash h node,
                       sortedKeys := sortKeys (ringAfterAdd hash h node),
                       replicas := h.replicas } := by
  unfold HashOrbit.add ringAfterAdd
  cases validateIdentifier node "Node identifier" <;> rfl

theorem remove_def (hash : String → Nat) (h : HashOrbit) (node : String) :
    HashOrbit.remove hash h node =
      match validateIdentifier node "Node identifier" with
      | .error e => .error e
      | .ok _ => .ok { ring := ringAfterRemove hash h node,
                       sortedKeys := sortKeys (ringAfterRemove hash h node),
                       replicas := h.replicas } := by
  unfold HashOrbit.remove ringAfterRemove
  cases validateIdentifier node "Node identifier" <;> rfl

theorem get_def (hash : String → Nat) (h : HashOrbit) (key : String) :
    HashOrbit.get hash h key =
      match validateIdentifier key "Key" with
      | .error e => .error e
      | .ok _ =>
        if h.ring.length = 0 then .ok none
        else
          .ok (mapGet h.ring (h.sortedKeys.getD
            (if binarySearch h.sortedKeys (hash key) ≥ h.sortedKeys.length then 0
             else binarySearch h.sortedKeys (hash key)) 0)) := by
  unfold HashOrbit.get
  cases validateIdentifier key "Key" <;> [rfl; skip]
  by_cases he : h.ring.length = 0 <;> simp [he]

theorem getN_def (hash : String → Nat) (h : HashOrbit) (key : String) (count : Int) :
    HashOrbit.getN hash h key count =
      match validateIdentifier key "Key" with
      | .error e => .error e
      | .ok _ =>
        if h.ring.length = 0 ∨ count ≤ 0 then .ok []
        else
          .ok (getNLoop h.ring h.sortedKeys count
            (binarySearch h.sortedKeys (hash key)) [] [] h.sortedKeys.length) := by
  unfold HashOrbit.getN
  cases validateIdentifier key "Key" <;> [rfl; skip]
  by_cases he : h.ring.length = 0 ∨ count ≤ 0 <;> simp [he] <;> rfl

theorem add_eq_ok (hash : String → Nat) (h : HashOrbit) {node : String}
    (hv : ValidId node) :
    HashOrbit.add hash h node =
      .ok { ring := ringAfterAdd hash h node,
            sortedKeys := sortKeys (ringAfterAdd hash h node),
            replicas := h.replicas } := by
  rw [add_def, validateIdentifier_eq_ok _ hv]

theorem remove_eq_ok (hash : String → Nat) (h : HashOrbit) {node : String}
    (hv : ValidId node) :
    HashOrbit.remove hash h node =
      .ok { ring := ringAfterRemove hash h node,
            sortedKeys := sortKeys (ringAfterRemove hash h node),
            replicas := h.replicas } := by
  rw [remove_def, validateIdentifier_eq_ok _ hv]

theorem add_ok_elim {hash : String → Nat} {h h' : HashOrbit} {node : String}
    (he : HashOrbit.add hash h node = .ok h') :
    ValidId node ∧ h'.ring = ringAfterAdd hash h node ∧
      h'.sortedKeys = sortKeys h'.ring ∧ h'.replicas = h.replicas := by
  rw [add_def] at he
  rcases hval : validateIdentifier node "Node identifier" with e | u
  · rw [hval] at he; cases he
  · have hv : ValidId node := by
      by_contra hnv
      unfold validateIdentifier at hval
      unfold ValidId at hnv
      push_neg at hnv
      by_cases h1 : node = "" <;> simp [h1] at hval
      have := hnv h1
      omega
    rw [hval] at he
    cases he
    exact ⟨hv, rfl, rfl, rfl⟩

theorem remove_ok_elim {hash : String → Nat} {h h' : HashOrbit} {node : String}
    (he : HashOrbit.remove hash h node = .ok h') :
    ValidId node ∧ h'.ring = ringAfterRemove hash h node ∧
      h'.sortedKeys = sortKeys h'.ring ∧ h'.replicas = h.replicas := by
  rw [remove_def] at he
  rcases hval : validateIdentifier node "Node identifier" with e | u
  · rw [hval] at he; cases he
  · have hv : ValidId node := by
      by_contra hnv
      unfold validateIdentifier at hval
      unfold ValidId at hnv
      push_neg at hnv
      by_cases h1 : node = "" <;> simp [h1] at hval
      have := hnv h1
      omega
    rw [hval] at he
    cases he
    exact ⟨hv, rfl, rfl, rfl⟩

/-! ### Well-formedness preservation -/

theorem wf_new (replicas : Option Int) : WF (HashOrbit.new replicas) := by
  refine ⟨rfl, List.nodup_nil, ?_⟩
  intro pv hpv
  cases hpv

theorem wf_add {hash : String → Nat} {h h' : HashOrbit} {node : String}
    (hwf : WF h) (he : HashOrbit.add hash h node = .ok h') : WF h' := by
  obtain ⟨hv, hring, hsk, _⟩ := add_ok_elim he
  refine ⟨hsk, ?_, ?_⟩
  · rw [hring]
    exact nodup_fst_foldl_set _ _ _ hwf.2.1
  · intro pv hpv
    rw [hring] at hpv
    have hsnd : pv.2 ∈ (ringAfterAdd hash h node).map Prod.snd :=
      List.mem_map.mpr ⟨pv, hpv, rfl⟩
    rcases snd_foldl_set_subset _ _ _ _ hsnd with hvv | hold
    · rw [hvv]; exact hv
    · rcases List.mem_map.mp hold with ⟨pv0, hpv0, hpv0e⟩
      rw [← hpv0e]
      exact hwf.2.2 pv0 hpv0

theorem wf_remove {hash : String → Nat} {h h' : HashOrbit} {node : String}
    (hwf : WF h) (he : HashOrbit.remove hash h node = .ok h') : WF h' := by
  obtain ⟨hv, hring, hsk, _⟩ := remove_ok_elim he
  refine ⟨hsk, ?_, ?_⟩
  · rw [hring]
    exact nodup_fst_foldl_del _ _ hwf.2.1
  · intro pv hpv
    rw [hring] at hpv
    have hsnd : pv.2 ∈ (ringAfterRemove hash h node).map Prod.snd :=
      List.mem_map.mpr ⟨pv, hpv, rfl⟩
    have hold := snd_foldl_del_subset _ _ _ hsnd
    rcases List.mem_map.mp hold with ⟨pv0, hpv0, hpv0e⟩
    rw [← hpv0e]
    exact hwf.2.2 pv0 hpv0

theorem reachable_wf {hash : String → Nat} {h : HashOrbit}
    (hr : Reachable hash h) : WF h := by
  induction hr with
  | new replicas => exact wf_new replicas
  | add node _ he ih => exact wf_add ih he
  | remove node _ he ih => exact wf_remove ih he

/-! ### Binary search: bounds and lower-bound characterization -/

theorem binarySearchLoop_step {keys : List Nat} {target left right : Nat}
    (hlt : left < right) :
    binarySearchLoop keys target left right =
      if keys.getD ((left + right) / 2) 0 < target then
        binarySearchLoop keys target ((left + right) / 2 + 1) right
      else
        binarySearchLoop keys target left ((left + right) / 2) := by
  rw [binarySearchLoop]
  simp [hlt]

theorem binarySearchLoop_stop {keys : List Nat} {target left right : Nat}
    (h : ¬ left < right) :
    binarySearchLoop keys target left right = left := by
  rw [binarySearchLoop]
  simp [h]

theorem binarySearchLoop_bounds (keys : List Nat) (target : Nat) :
    ∀ left right, left ≤ right →
      left ≤ binarySearchLoop keys target left right ∧
        binarySearchLoop keys target left right ≤ right := by
  intro left right
  induction left, right using binarySearchLoop.induct keys target with
  | case1 left right hlt mid hmid ih =>
    intro _
    rw [binarySearchLoop_step hlt, if_pos hmid]
    have hb := ih (by omega)
    simp only [mid] at hb ⊢
    omega
  | case2 left right hlt mid hmid ih =>
    intro _
    rw [binarySearchLoop_step hlt, if_neg hmid]
    have hb := ih (by omega)
    simp only [mid] at hb ⊢
    omega
  | case3 left right hlt =>
    intro hlr
    rw [binarySearchLoop_stop hlt]
    omega

theorem binarySearchLoop_spec (keys : List Nat) (target : Nat)
    (hs : ∀ i j, i ≤ j → j < keys.length → keys.getD i 0 ≤ keys.getD j 0) :
    ∀ left right, left ≤ right → right ≤ keys.length →
      (∀ j, j < left → keys.getD j 0 < target) →
      (∀ j, right ≤ j → j < keys.length → target ≤ keys.getD j 0) →
      (∀ j, j < binarySearchLoop keys target left right → keys.getD j 0 < target) ∧
        (binarySearchLoop keys target left right < keys.length →
          target ≤ keys.getD (binarySearchLoop keys target left right) 0) := by
  intro left right
  induction left, right using binarySearchLoop.induct keys target with
  | case1 left right hlt mid hmid ih =>
    intro hlr hrl hleft hright
    rw [binarySearchLoop_step hlt, if_pos hmid]
    have hmide : mid = (left + right) / 2 := rfl
    refine ih (by omega) hrl ?_ hright
    intro j hj
    rcases Nat.lt_or_ge j ((left + right) / 2) with hjm | hjm
    · exact Nat.lt_of_le_of_lt (hs j ((left + right) / 2) (by omega) (by omega)) hmid
    · have hje : j = (left + right) / 2 := by omega
      rw [hje]
      exact hmid
  | case2 left right hlt mid hmid ih =>
    intro hlr hrl hleft hright
    rw [binarySearchLoop_step hlt, if_neg hmid]
    have hmide : mid = (left + right) / 2 := rfl
    refine ih (by omega) (by omega) hleft ?_
    intro j hmj hjl
    push_neg at hmid
    exact Nat.le_trans hmid (hs ((left + right) / 2) j hmj hjl)
  | case3 left right hlt =>
    intro hlr hrl hleft hright
    rw [binarySearchLoop_stop hlt]
    have hle : left = right := by omega
    subst hle
    exact ⟨hleft, fun hl => hright left (le_refl _) hl⟩

theorem lowerBoundSpec_le_length (keys : List Nat) (target : Nat) :
    lowerBoundSpec keys target ≤ keys.length :=
  List.findIdx_le_length _

theorem lowerBoundSpec_lower (keys : List Nat) (target : Nat) :
    ∀ j, j < lowerBoundSpec keys target → keys.getD j 0 < target := by
  intro j hj
  have hjl : j < keys.length :=
    Nat.lt_of_lt_of_le hj (List.findIdx_le_length _)
  have hp := List.not_of_lt_findIdx hj
  rw [List.getD_eq_getElem keys 0 hjl]
  simpa using hp

theorem lowerBoundSpec_at (keys : List Nat) (target : Nat)
    (h : lowerBoundSpec keys target < keys.length) :
    target ≤ keys.getD (lowerBoundSpec keys target) 0 := by
  have hp := @List.findIdx_getElem _ (fun k => target ≤ k) keys h
  rw [List.getD_eq_getElem keys 0 h]
  simpa using hp

theorem lowerBound_unique {keys : List Nat} {target i i' : Nat}
    (h1 : ∀ j, j < i → keys.getD j 0 < target)
    (h2 : i < keys.length → target ≤ keys.getD i 0) (h3 : i ≤ keys.length)
    (g1 : ∀ j, j < i' → keys.getD j 0 < target)
    (g2 : i' < keys.length → target ≤ keys.getD i' 0) (g3 : i' ≤ keys.length) :
    i = i' := by
  rcases Nat.lt_trichotomy i i' with hlt | heq | hgt
  · exfalso
    have ha := g1 i hlt
    have hb := h2 (Nat.lt_of_lt_of_le hlt g3)
    omega
  · exact heq
  · exfalso
    have ha := h1 i' hgt
    have hb := g2 (Nat.lt_of_lt_of_le hgt h3)
    omega

theorem sorted_getD_mono {l : List Nat} (hs : l.Sorted (· ≤ ·)) :
    ∀ i j, i ≤ j → j < l.length → l.getD i 0 ≤ l.getD j 0 := by
  intro i j hij hjl
  rcases Nat.eq_or_lt_of_le hij with rfl | hlt
  · exact le_refl _
  · have hil : i < l.length := Nat.lt_trans hlt hjl
    rw [List.getD_eq_getElem l 0 hil, List.getD_eq_getElem l 0 hjl]
    exact @List.Sorted.rel_get_of_lt _ _ _ hs ⟨i, hil⟩ ⟨j, hjl⟩ hlt

/-- On a sorted index, the code's binary search computes exactly the spec's
lower bound: the first index whose stored position is `≥ target`. -/
theorem binarySearch_eq_lowerBoundSpec {keys : List Nat} (target : Nat)
    (hs : keys.Sorted (· ≤ ·)) :
    binarySearch keys target = lowerBoundSpec keys target := by
  have hmono := sorted_getD_mono hs
  have hspec := binarySearchLoop_spec keys target hmono 0 keys.length
    (Nat.zero_le _) (le_refl _) (by intro j hj; omega)
    (by intro j hj hjl; omega)
  have hb := binarySearchLoop_bounds keys target 0 keys.length (Nat.zero_le _)
  exact lowerBound_unique hspec.1 hspec.2 hb.2
    (lowerBoundSpec_lower keys target) (lowerBoundSpec_at keys target)
    (lowerBoundSpec_le_length keys target)

theorem binarySearch_le_length (keys : List Nat) (target : Nat) :
    binarySearch keys target ≤ keys.length :=
  (binarySearchLoop_bounds keys target 0 keys.length (Nat.zero_le _)).2

/-! ### Sorted index facts under WF -/

theorem sortKeys_sorted (ring : List (Nat × String)) :
    (sortKeys ring).Sorted (· ≤ ·) :=
  List.sorted_insertionSort _ _

theorem sortKeys_perm (ring : List (Nat × String)) :
    (sortKeys ring).Perm (ring.map Prod.fst) :=
  List.perm_insertionSort _ _

theorem wf_sortedKeys_sorted {h : HashOrbit} (hwf : WF h) :
    h.sortedKeys.Sorted (· ≤ ·) := by
  rw [hwf.1]
  exact sortKeys_sorted _

theorem wf_sortedKeys_nodup {h : HashOrbit} (hwf : WF h) :
    h.sortedKeys.Nodup := by
  rw [hwf.1]
  exact (sortKeys_perm h.ring).nodup_iff.mpr hwf.2.1

theorem wf_sortedKeys_mem {h : HashOrbit} (hwf : WF h) (k : Nat) :
    k ∈ h.sortedKeys ↔ k ∈ h.ring.map Prod.fst := by
  rw [hwf.1]
  exact (sortKeys_perm h.ring).mem_iff

theorem wf_sortedKeys_length {h : HashOrbit} (hwf : WF h) :
    h.sortedKeys.length = h.ring.length := by
  rw [hwf.1]
  rw [(sortKeys_perm h.ring).length_eq, List.length_map]

theorem mapGet_some_of_mem_fst {m : List (Nat × String)} {k : Nat}
    (hk : k ∈ m.map Prod.fst) : ∃ w, mapGet m k = some w := by
  rcases List.mem_map.mp hk with ⟨p, hp, rfl⟩
  exact @mapGet_isSome_of_mem m p.1 p.2 (by simpa using hp)

/-- The wrapped start index used by `get` and `getN`. -/
def startIdx (hash : String → Nat) (h : HashOrbit) (key : String) : Nat :=
  if binarySearch h.sortedKeys (hash key) ≥ h.sortedKeys.length then 0
  else binarySearch h.sortedKeys (hash key)

theorem get_eq_ok (hash : String → Nat) (h : HashOrbit) {key : String}
    (hv : ValidId key) (hne : h.ring ≠ []) :
    HashOrbit.get hash h key
      = .ok (mapGet h.ring (h.sortedKeys.getD (startIdx hash h key) 0)) := by
  rw [get_def, validateIdentifier_eq_ok _ hv]
  rw [if_neg (by simpa using hne)]
  rfl

theorem startIdx_lt_length (hash : String → Nat) {h : HashOrbit} (key : String)
    (hwf : WF h) (hne : h.ring ≠ []) : startIdx hash h key < h.sortedKeys.length := by
  have hlen : h.sortedKeys.length = h.ring.length := wf_sortedKeys_length hwf
  have hpos : 0 < h.sortedKeys.length := by
    rw [hlen]
    exact List.length_pos.mpr hne
  unfold startIdx
  split
  · exact hpos
  · omega

theorem get_some (hash : String → Nat) {h : HashOrbit} {key : String}
    (hwf : WF h) (hne : h.ring ≠ []) (hv : ValidId key) :
    ∃ n : String, HashOrbit.get hash h key = .ok (some n) := by
  rw [get_eq_ok hash h hv hne]
  have hlt := startIdx_lt_length hash key hwf hne
  have hmem : h.sortedKeys.getD (startIdx hash h key) 0 ∈ h.sortedKeys := by
    rw [List.getD_eq_getElem _ _ hlt]
    exact List.getElem_mem hlt
  rcases mapGet_some_of_mem_fst ((wf_sortedKeys_mem hwf _).mp hmem) with ⟨w, hw⟩
  exact ⟨w, by rw [hw]⟩

/-- C1: on every well-formed non-empty ring and valid key, `get` computes
`position = hash(key)`, takes the first index of the ascending sorted index
whose stored position is `≥ position` (the lower bound `findIdx`), wraps to
index 0 when no such index exists, and returns the node the entry mapping
assigns to the position at that index. -/
theorem C1_get_lowerBound_lookup (hash : String → Nat) (h : HashOrbit)
    (key : String) (hwf : WF h) (hne : h.ring ≠ []) (hv : ValidId key) :
    ∃ n : String,
      HashOrbit.get hash h key = .ok (some n) ∧
      mapGet h.ring (h.sortedKeys.getD
        (if lowerBoundSpec h.sortedKeys (hash key) ≥ h.sortedKeys.length then 0
         else lowerBoundSpec h.sortedKeys (hash key)) 0) = some n := by
  rcases get_some hash hwf hne hv with ⟨n, hn⟩
  refine ⟨n, hn, ?_⟩
  have hbs : binarySearch h.sortedKeys (hash key)
      = lowerBoundSpec h.sortedKeys (hash key) :=
    binarySearch_eq_lowerBoundSpec (hash key) (wf_sortedKeys_sorted hwf)
  rw [get_eq_ok hash h hv hne] at hn
  have : mapGet h.ring (h.sortedKeys.getD (startIdx hash h key) 0) = some n :=
    Except.ok.inj hn
  rw [← this]
  unfold startIdx
  rw [hbs]

/-! ### Structural form of the getN walk -/

/-- The `getN` walk restated structurally: visit the listed keys in order,
collecting unique non-empty owning nodes while fewer than `count` results. -/
def collect (ring : List (Nat × String)) (count : Int)
    (seen result : List String) : List Nat → List String
  | [] => result
  | k :: ks =>
    if (result.length : Int) < count then
      match mapGet ring k with
      | some node =>
        if node ≠ "" ∧ node ∉ seen then
          collect ring count (node :: seen) (result ++ [node]) ks
        else
          collect ring count seen result ks
      | none => collect ring count seen result ks
    else
      result

/-- One iteration of `getNLoop` equals one step of `collect` over the rotated
key sequence: the loop with `fuel` iterations left, at wrapped position
`i'`, visits exactly `take fuel` of `drop i' ++ take i'`. -/
theorem getNLoop_eq_collect (ring : List (Nat × String)) (keys : List Nat)
    (count : Int) :
    ∀ fuel idx seen result, idx ≤ keys.length → fuel ≤ keys.length →
      getNLoop ring keys count idx seen result fuel
        = collect ring count seen result
            (((keys.drop (if idx ≥ keys.length then 0 else idx))
              ++ keys.take (if idx ≥ keys.length then 0 else idx)).take fuel) := by
  intro fuel
  induction fuel with
  | zero =>
    intro idx seen result _ _
    simp [getNLoop, collect]
  | succ fuel ih =>
    intro idx seen result hidx hfuel
    have hlen : 0 < keys.length := by omega
    set i' := if idx ≥ keys.length then 0 else idx with hi'
    have hi'lt : i' < keys.length := by
      rw [hi']
      split <;> omega
    have hrot : (keys.drop i' ++ keys.take i').take (fuel + 1)
        = keys[i'] :: ((keys.drop (i' + 1) ++ keys.take i').take fuel) := by
      rw [List.drop_eq_getElem_cons hi'lt, List.cons_append, List.take_succ_cons]
    have hgetd : keys.getD i' 0 = keys[i'] := List.getD_eq_getElem keys 0 hi'lt
    have htail : (keys.drop (i' + 1) ++ keys.take i').take fuel
        = ((keys.drop (if i' + 1 ≥ keys.length then 0 else i' + 1))
            ++ keys.take (if i' + 1 ≥ keys.length then 0 else i' + 1)).take fuel := by
      by_cases hwrap : i' + 1 ≥ keys.length
      · have hieq : i' = keys.length - 1 := by omega
        rw [if_pos hwrap, List.drop_zero, List.take_zero, List.append_nil]
        have hdrop : keys.drop (i' + 1) = [] := by
          apply List.drop_eq_nil_of_le
          omega
        rw [hdrop, List.nil_append, List.take_take]
        congr 1
        omega
      · rw [if_neg hwrap]
        have hstep : keys.take (i' + 1) = (keys.take i').concat keys[i'] :=
          (List.take_concat_get keys i' hi'lt).symm
        have hlen2 : fuel ≤ (keys.drop (i' + 1) ++ keys.take i').length := by
          rw [List.length_append, List.length_drop, List.length_take]
          omega
        rw [hstep, List.concat_eq_append, ← List.append_assoc,
          List.take_append_of_le_length hlen2]
    rw [hrot]
    have harg : i' + 1 ≤ keys.length := by omega
    by_cases hcnt : (result.length : Int) < count
    · cases hmg : mapGet ring keys[i'] with
      | none =>
        have hL : getNLoop ring keys count idx seen result (fuel + 1)
            = getNLoop ring keys count (i' + 1) seen result fuel := by
          rw [getNLoop]
          simp only [← hi', hgetd, hmg, if_pos hcnt]
        have hR : collect ring count seen result
              (keys[i'] :: ((keys.drop (i' + 1) ++ keys.take i').take fuel))
            = collect ring count seen result
              ((keys.drop (i' + 1) ++ keys.take i').take fuel) := by
          rw [collect]
          simp only [hmg, if_pos hcnt]
        rw [hL, hR, ih (i' + 1) seen result harg (by omega), htail]
      | some node =>
        by_cases hnode : node ≠ "" ∧ node ∉ seen
        · have hL : getNLoop ring keys count idx seen result (fuel + 1)
              = getNLoop ring keys count (i' + 1) (node :: seen)
                  (result ++ [node]) fuel := by
            rw [getNLoop]
            simp only [← hi', hgetd, hmg, if_pos hcnt, if_pos hnode]
          have hR : collect ring count seen result
                (keys[i'] :: ((keys.drop (i' + 1) ++ keys.take i').take fuel))
              = collect ring count (node :: seen) (result ++ [node])
                  ((keys.drop (i' + 1) ++ keys.take i').take fuel) := by
            rw [collect]
            simp only [hmg, if_pos hcnt, if_pos hnode]
          rw [hL, hR, ih (i' + 1) (node :: seen) (result ++ [node]) harg (by omega),
            htail]
        · have hL : getNLoop ring keys count idx seen result (fuel + 1)
              = getNLoop ring keys count (i' + 1) seen result fuel := by
            rw [getNLoop]
            simp only [← hi', hgetd, hmg, if_pos hcnt, if_neg hnode]
          have hR : collect ring count seen result
                (keys[i'] :: ((keys.drop (i' + 1) ++ keys.take i').take fuel))
              = collect ring count seen result
                  ((keys.drop (i' + 1) ++ keys.take i').take fuel) := by
            rw [collect]
            simp only [hmg, if_pos hcnt, if_neg hnode]
          rw [hL, hR, ih (i' + 1) seen result harg (by omega), htail]
    · rw [getNLoop, collect, if_neg hcnt, if_neg hcnt]

theorem collect_head? (ring : List (Nat × String)) (count : Int) :
    ∀ ks seen result, result ≠ [] →
      (collect ring count seen result ks).head? = result.head? := by
  intro ks
  induction ks with
  | nil => intro seen result _; rfl
  | cons k ks ih =>
    intro seen result hne
    by_cases hcnt : (result.length : Int) < count
    · cases hmg : mapGet ring k with
      | none =>
        rw [collect]
        simp only [hmg, if_pos hcnt]
        exact ih seen result hne
      | some node =>
        by_cases hnode : node ≠ "" ∧ node ∉ seen
        · rw [collect]
          simp only [hmg, if_pos hcnt, if_pos hnode]
          rw [ih _ _ (by simp)]
          cases result with
          | nil => exact absurd rfl hne
          | cons a l => simp
        · rw [collect]
          simp only [hmg, if_pos hcnt, if_neg hnode]
          exact ih seen result hne
    · rw [collect]
      rw [if_neg hcnt]

theorem collect_invariant (ring : List (Nat × String)) (count : Int) :
    ∀ ks seen result, result.Nodup → (∀ v, v ∈ seen ↔ v ∈ result) →
      (collect ring count seen result ks).Nodup ∧
      (∀ v, v ∈ collect ring count seen result ks →
        v ∈ result ∨ v ∈ ring.map Prod.snd) ∧
      (∀ v, v ∈ result → v ∈ collect ring count seen result ks) := by
  intro ks
  induction ks with
  | nil =>
    intro seen result hnd _
    exact ⟨hnd, fun v hv => Or.inl hv, fun v hv => hv⟩
  | cons k ks ih =>
    intro seen result hnd hsr
    by_cases hcnt : (result.length : Int) < count
    · cases hmg : mapGet ring k with
      | none =>
        rw [collect]
        simp only [hmg, if_pos hcnt]
        exact ih seen result hnd hsr
      | some node =>
        by_cases hnode : node ≠ "" ∧ node ∉ seen
        · rw [collect]
          simp only [hmg, if_pos hcnt, if_pos hnode]
          have hnotin : node ∉ result := fun hr => hnode.2 ((hsr node).mpr hr)
          have hnd' : (result ++ [node]).Nodup := by
            rw [List.nodup_append]
            exact ⟨hnd, List.nodup_singleton node, by
              intro a ha
              simp only [List.mem_singleton]
              intro hae
              exact hnotin (hae ▸ ha)⟩
          have hsr' : ∀ v, v ∈ node :: seen ↔ v ∈ result ++ [node] := by
            intro v
            rw [List.mem_cons, List.mem_append, List.mem_singleton, hsr]
            tauto
          obtain ⟨ha, hb, hc⟩ := ih (node :: seen) (result ++ [node]) hnd' hsr'
          refine ⟨ha, ?_, ?_⟩
          · intro v hv
            rcases hb v hv with hvr | hvm
            · rcases List.mem_append.mp hvr with hvr | hvn
              · exact Or.inl hvr
              · right
                rw [List.mem_singleton.mp hvn]
                exact mapGet_mem_snd hmg
            · exact Or.inr hvm
          · intro v hv
            exact hc v (List.mem_append.mpr (Or.inl hv))
        · rw [collect]
          simp only [hmg, if_pos hcnt, if_neg hnode]
          exact ih seen result hnd hsr
    · rw [collect]
      rw [if_neg hcnt]
      exact ⟨hnd, fun v hv => Or.inl hv, fun v hv => hv⟩

/-! ### dedupFirst (JS Set) lemmas -/

theorem dedupFirst_loop_mem : ∀ (l acc : List String) (x : String),
    x ∈ l.foldl (fun acc v => if v ∈ acc then acc else acc ++ [v]) acc
      ↔ x ∈ acc ∨ x ∈ l := by
  intro l
  induction l with
  | nil =>
    intro acc x
    simp
  | cons v l ih =>
    intro acc x
    rw [List.foldl_cons, ih]
    by_cases hv : v ∈ acc
    · rw [if_pos hv]
      rw [List.mem_cons]
      constructor
      · intro hx
        tauto
      · intro hx
        rcases hx with hx | hx | hx
        · exact Or.inl hx
        · exact Or.inl (hx ▸ hv)
        · exact Or.inr hx
    · rw [if_neg hv]
      rw [List.mem_cons, List.mem_append, List.mem_singleton]
      tauto

theorem dedupFirst_loop_nodup : ∀ (l acc : List String), acc.Nodup →
    (l.foldl (fun acc v => if v ∈ acc then acc else acc ++ [v]) acc).Nodup := by
  intro l
  induction l with
  | nil => intro acc h; exact h
  | cons v l ih =>
    intro acc h
    rw [List.foldl_cons]
    by_cases hv : v ∈ acc
    · rw [if_pos hv]
      exact ih acc h
    · rw [if_neg hv]
      refine ih _ ?_
      rw [List.nodup_append]
      refine ⟨h, List.nodup_singleton v, ?_⟩
      intro a ha
      rw [List.mem_singleton]
      intro hae
      exact hv (hae ▸ ha)

theorem mem_dedupFirst : ∀ (l : List String) (x : String),
    x ∈ dedupFirst l ↔ x ∈ l := by
  intro l x
  unfold dedupFirst
  rw [dedupFirst_loop_mem]
  simp

theorem nodup_dedupFirst : ∀ l : List String, (dedupFirst l).Nodup := by
  intro l
  exact dedupFirst_loop_nodup l [] List.nodup_nil

theorem length_le_dedupFirst {l l' : List String} (hnd : l.Nodup)
    (hsub : ∀ x, x ∈ l → x ∈ l') : l.length ≤ (dedupFirst l').length := by
  classical
  have h1 : l.toFinset.card = l.length := List.toFinset_card_of_nodup hnd
  have h2 : (dedupFirst l').toFinset.card = (dedupFirst l').length :=
    List.toFinset_card_of_nodup (nodup_dedupFirst l')
  rw [← h1, ← h2]
  apply Finset.card_le_card
  intro x hx
  rw [List.mem_toFinset] at *
  exact (mem_dedupFirst l' x).mpr (hsub x hx)

theorem collect_complete (ring : List (Nat × String)) (count : Int)
    (hcount : ((dedupFirst (ring.map Prod.snd)).length : Int) < count) :
    ∀ ks seen result,
      result.Nodup → (∀ v, v ∈ seen ↔ v ∈ result) →
      (∀ v, v ∈ result → v ∈ ring.map Prod.snd) →
      ∀ k, k ∈ ks → ∀ v, mapGet ring k = some v → v ≠ "" →
        v ∈ collect ring count seen result ks := by
  intro ks
  induction ks with
  | nil =>
    intro seen result _ _ _ k hk
    cases hk
  | cons k0 ks ih =>
    intro seen result hnd hsr hsub k hk v hmg hvne
    have hcnt : (result.length : Int) < count := by
      have := length_le_dedupFirst hnd hsub
      omega
    rcases List.mem_cons.mp hk with rfl | hks
    · rw [collect]
      simp only [hmg, if_pos hcnt]
      by_cases hnode : v ≠ "" ∧ v ∉ seen
      · simp only [if_pos hnode]
        have hnotin : v ∉ result := fun hr => hnode.2 ((hsr v).mpr hr)
        have hnd' : (result ++ [v]).Nodup := by
          rw [List.nodup_append]
          exact ⟨hnd, List.nodup_singleton v, by
            intro a ha
            simp only [List.mem_singleton]
            intro hae
            exact hnotin (hae ▸ ha)⟩
        have hsr' : ∀ w, w ∈ v :: seen ↔ w ∈ result ++ [v] := by
          intro w
          rw [List.mem_cons, List.mem_append, List.mem_singleton, hsr]
          tauto
        exact (collect_invariant ring count ks (v :: seen) (result ++ [v])
          hnd' hsr').2.2 v (List.mem_append.mpr (Or.inr (List.mem_singleton.mpr rfl)))
      · simp only [if_neg hnode]
        have hseen : v ∈ seen := by
          push_neg at hnode
          exact hnode hvne
        exact (collect_invariant ring count ks seen result hnd hsr).2.2 v
          ((hsr v).mp hseen)
    · cases hmg0 : mapGet ring k0 with
      | none =>
        rw [collect]
        simp only [hmg0, if_pos hcnt]
        exact ih seen result hnd hsr hsub k hks v hmg hvne
      | some node =>
        by_cases hnode : node ≠ "" ∧ node ∉ seen
        · rw [collect]
          simp only [hmg0, if_pos hcnt, if_pos hnode]
          have hnotin : node ∉ result := fun hr => hnode.2 ((hsr node).mpr hr)
          have hnd' : (result ++ [node]).Nodup := by
            rw [List.nodup_append]
            exact ⟨hnd, List.nodup_singleton node, by
              intro a ha
              simp only [List.mem_singleton]
              intro hae
              exact hnotin (hae ▸ ha)⟩
          have hsr' : ∀ w, w ∈ node :: seen ↔ w ∈ result ++ [node] := by
            intro w
            rw [List.mem_cons, List.mem_append, List.mem_singleton, hsr]
            tauto
          have hsub' : ∀ w, w ∈ result ++ [node] → w ∈ ring.map Prod.snd := by
            intro w hw
            rcases List.mem_append.mp hw with hw | hw
            · exact hsub w hw
            · rw [List.mem_singleton.mp hw]
              exact mapGet_mem_snd hmg0
          exact ih (node :: seen) (result ++ [node]) hnd' hsr' hsub' k hks v hmg hvne
        · rw [collect]
          simp only [hmg0, if_pos hcnt, if_neg hnode]
          exact ih seen result hnd hsr hsub k hks v hmg hvne

/-- The rotation of the sorted index that `getN` walks, starting at the
wrapped lower-bound index. -/
def rotatedKeys (hash : String → Nat) (h : HashOrbit) (key : String) : List Nat :=
  h.sortedKeys.drop (startIdx hash h key) ++ h.sortedKeys.take (startIdx hash h key)

theorem getN_eq_collect (hash : String → Nat) (h : HashOrbit) {key : String}
    {count : Int} (hv : ValidId key) (hne : h.ring ≠ []) (hc : 0 < count) :
    HashOrbit.getN hash h key count
      = .ok (collect h.ring count [] [] (rotatedKeys hash h key)) := by
  rw [getN_def, validateIdentifier_eq_ok _ hv]
  rw [if_neg (by
    push_neg
    constructor
    · simpa using hne
    · omega)]
  rw [getNLoop_eq_collect h.ring h.sortedKeys count h.sortedKeys.length
    (binarySearch h.sortedKeys (hash key)) [] []
    (binarySearch_le_length _ _) (le_refl _)]
  have hfull : ((h.sortedKeys.drop
        (if binarySearch h.sortedKeys (hash key) ≥ h.sortedKeys.length then 0
         else binarySearch h.sortedKeys (hash key)))
      ++ h.sortedKeys.take
        (if binarySearch h.sortedKeys (hash key) ≥ h.sortedKeys.length then 0
         else binarySearch h.sortedKeys (hash key))).take h.sortedKeys.length
      = rotatedKeys hash h key := by
    unfold rotatedKeys startIdx
    apply List.take_of_length_le
    rw [List.length_append, List.length_drop, List.length_take]
    omega
  rw [hfull]

theorem wf_mapGet_valid {h : HashOrbit} (hwf : WF h) {k : Nat} {v : String}
    (hmg : mapGet h.ring k = some v) : ValidId v :=
  hwf.2.2 _ (mapGet_eq_some_mem hmg)

/-- C2: on every well-formed non-empty ring, for every valid key and every
count `≥ 1`, the first element of `getN(key, count)` equals `get(key)`. -/
theorem C2_getN_first_eq_get (hash : String → Nat) (h : HashOrbit)
    (key : String) (count : Int) (hwf : WF h) (hne : h.ring ≠ [])
    (hc : 1 ≤ count) (hv : ValidId key) :
    ∃ (l : List String) (n : String),
      HashOrbit.getN hash h key count = .ok l ∧
      HashOrbit.get hash h key = .ok (some n) ∧
      l.head? = some n := by
  obtain ⟨n, hget⟩ := get_some hash hwf hne hv
  refine ⟨collect h.ring count [] [] (rotatedKeys hash h key), n,
    getN_eq_collect hash h hv hne (by omega), hget, ?_⟩
  have hi'lt := startIdx_lt_length hash key hwf hne
  have hmgD : mapGet h.ring (h.sortedKeys.getD (startIdx hash h key) 0) = some n := by
    have hok := get_eq_ok hash h hv hne
    rw [hok] at hget
    exact Except.ok.inj hget
  have hmg : mapGet h.ring (h.sortedKeys[startIdx hash h key]) = some n := by
    rw [← List.getD_eq_getElem h.sortedKeys 0 hi'lt]
    exact hmgD
  have hrot : rotatedKeys hash h key
      = h.sortedKeys[startIdx hash h key]
          :: (h.sortedKeys.drop (startIdx hash h key + 1)
              ++ h.sortedKeys.take (startIdx hash h key)) := by
    unfold rotatedKeys
    rw [List.drop_eq_getElem_cons hi'lt, List.cons_append]
  have hvalid : ValidId n := wf_mapGet_valid hwf hmg
  rw [hrot, collect]
  have hcnt : ((([] : List String).length : Int) < count) := by
    simp only [List.length_nil, Nat.cast_zero]
    omega
  simp only [hmg, if_pos hcnt, if_pos (show n ≠ "" ∧ n ∉ ([] : List String) from
    ⟨hvalid.1, by simp⟩)]
  rw [collect_head? h.ring count _ _ ([] ++ [n]) (by simp)]
  simp

/-- C3: for every well-formed ring and valid key, the elements of
`getN(key, count)` are pairwise distinct; and whenever `count` exceeds the
number of distinct physical nodes, the result is exactly the set of all
distinct nodes, with length equal to `size`. -/
theorem C3_getN_unique_complete (hash : String → Nat) (h : HashOrbit)
    (key : String) (count : Int) (hwf : WF h) (hv : ValidId key) :
    ∃ l : List String,
      HashOrbit.getN hash h key count = .ok l ∧ l.Nodup ∧
      ((h.size : Int) < count →
        (∀ v, v ∈ l ↔ v ∈ h.nodes) ∧ l.length = h.size) := by
  by_cases hdeg : h.ring = [] ∨ count ≤ 0
  · refine ⟨[], ?_, List.nodup_nil, ?_⟩
    · rw [getN_def, validateIdentifier_eq_ok _ hv, if_pos (by
        rcases hdeg with hr | hcle
        · left; simp [hr]
        · right; exact hcle)]
    · intro hsize
      have hr : h.ring = [] := by
        rcases hdeg with hr | hcle
        · exact hr
        · exfalso
          have : (0 : Int) ≤ (h.size : Int) := Int.ofNat_nonneg _
          omega
      have hnodes : h.nodes = [] := by
        unfold HashOrbit.nodes
        rw [hr]
        rfl
      constructor
      · intro v
        rw [hnodes]
      · unfold HashOrbit.size
        rw [hnodes]
  · push_neg at hdeg
    obtain ⟨hne, hcpos⟩ := hdeg
    have hc0 : 0 < count := by omega
    set l := collect h.ring count [] [] (rotatedKeys hash h key) with hl
    have hinv := collect_invariant h.ring count (rotatedKeys hash h key) [] []
      List.nodup_nil (by simp)
    refine ⟨l, getN_eq_collect hash h hv hne hc0, hinv.1, ?_⟩
    intro hsize
    have hcount : ((dedupFirst (h.ring.map Prod.snd)).length : Int) < count := hsize
    have hmem : ∀ v, v ∈ l ↔ v ∈ h.nodes := by
      intro v
      constructor
      · intro hvl
        rcases hinv.2.1 v hvl with hvr | hvm
        · cases hvr
        · exact (mem_dedupFirst _ v).mpr hvm
      · intro hvn
        have hvm : v ∈ h.ring.map Prod.snd := (mem_dedupFirst _ v).mp hvn
        rcases List.mem_map.mp hvm with ⟨pv, hpv, hpve⟩
        have hmg : mapGet h.ring pv.1 = some v := by
          rw [← hpve]
          exact mapGet_of_mem_nodup hwf.2.1 (by
            have : pv = (pv.1, pv.2) := rfl
            rw [← this]
            exact hpv)
        have hkmem : pv.1 ∈ rotatedKeys hash h key := by
          have h1 : pv.1 ∈ h.ring.map Prod.fst := List.mem_map.mpr ⟨pv, hpv, rfl⟩
          have h2 : pv.1 ∈ h.sortedKeys := (wf_sortedKeys_mem hwf _).mpr h1
          unfold rotatedKeys
          rw [← List.take_append_drop (startIdx hash h key) h.sortedKeys] at h2
          rw [List.mem_append] at h2 ⊢
          tauto
        have hvne : v ≠ "" := by
          rw [← hpve]
          exact (hwf.2.2 pv hpv).1
        exact collect_complete h.ring count hcount (rotatedKeys hash h key)
          [] [] List.nodup_nil (by simp) (by simp) pv.1 hkmem v hmg hvne
    have hperm : l.Perm h.nodes := by
      classical
      apply List.perm_of_nodup_nodup_toFinset_eq hinv.1 (nodup_dedupFirst _)
      ext v
      rw [List.mem_toFinset, List.mem_toFinset]
      exact hmem v
    exact ⟨hmem, hperm.length_eq⟩

/-- C9: for every valid key, `get` on a ring with zero positions returns
`undefined` (not an error), and `getN` returns the empty sequence whenever
the ring has zero positions or `count ≤ 0`. -/
theorem C9_empty_and_nonpositive (hash : String → Nat) (h : HashOrbit)
    (key : String) (count : Int) (hv : ValidId key) :
    (h.ring = [] → HashOrbit.get hash h key = .ok none) ∧
    (h.ring = [] ∨ count ≤ 0 → HashOrbit.getN hash h key count = .ok []) := by
  constructor
  · intro hr
    rw [get_def, validateIdentifier_eq_ok _ hv, if_pos (by simp [hr])]
  · intro hd
    rw [getN_def, validateIdentifier_eq_ok _ hv, if_pos (by
      rcases hd with hr | hcle
      · left; simp [hr]
      · right; exact hcle)]

/-- C5: after every operation (construction, `add`, `remove`) the sorted
index is exactly the distinct entry keys in strictly ascending order, and
`nodes` is exactly the set of distinct entry values, without duplicates. -/
theorem C5_index_and_nodes_invariant (hash : String → Nat) (h : HashOrbit)
    (hr : Reachable hash h) :
    h.sortedKeys.Sorted (· < ·) ∧
    (∀ k, k ∈ h.sortedKeys ↔ k ∈ h.ring.map Prod.fst) ∧
    h.nodes.Nodup ∧
    (∀ v, v ∈ h.nodes ↔ v ∈ h.ring.map Prod.snd) := by
  have hwf := reachable_wf hr
  refine ⟨?_, wf_sortedKeys_mem hwf, nodup_dedupFirst _, ?_⟩
  · exact (wf_sortedKeys_sorted hwf).lt_of_le (wf_sortedKeys_nodup hwf)
  · intro v
    exact mem_dedupFirst _ v

/-! ### Idempotence of add -/

theorem mem_mapSet_elim {m : List (Nat × String)} {k : Nat} {v : String} :
    ∀ e ∈ mapSet m k v, e = (k, v) ∨ e ∈ m := by
  intro e he
  unfold mapSet at he
  split at he
  · rcases List.mem_map.mp he with ⟨p, hp, rfl⟩
    by_cases hpk : p.1 = k
    · left; simp [hpk]
    · right
      have : (if p.1 == k then (k, v) else p) = p := by simp [hpk]
      rw [this]
      exact hp
  · rcases List.mem_append.mp he with hm | hs
    · right; exact hm
    · left; simpa using hs

theorem mapSet_keyval (m : List (Nat × String)) (k : Nat) (v : String) :
    ∀ e ∈ mapSet m k v, e.1 = k → e.2 = v := by
  intro e he hek
  unfold mapSet at he
  split at he
  · rcases List.mem_map.mp he with ⟨p, hp, rfl⟩
    by_cases hpk : p.1 = k
    · simp [hpk]
    · have : (if p.1 == k then (k, v) else p) = p := by simp [hpk]
      rw [this] at hek ⊢
      exact absurd hek hpk
  · rcases List.mem_append.mp he with hm | hs
    · rename_i hany
      exfalso
      simp only [List.any_eq_true, beq_iff_eq] at hany
      exact hany ⟨e, hm, hek⟩
    · rw [List.mem_singleton.mp hs]

theorem foldl_set_keyval (v : String) : ∀ (ps : List Nat)
    (m : List (Nat × String)) (k₀ : Nat),
    (∀ e ∈ m, e.1 = k₀ → e.2 = v) →
    ∀ e ∈ ps.foldl (fun m p => mapSet m p v) m, e.1 = k₀ → e.2 = v := by
  intro ps
  induction ps with
  | nil => intro m k₀ hm e he; exact hm e he
  | cons p ps ih =>
    intro m k₀ hm e he hek
    rw [List.foldl_cons] at he
    refine ih (mapSet m p v) k₀ ?_ e he hek
    intro e' he' he'k
    rcases mem_mapSet_elim e' he' with rfl | he'm
    · rfl
    · exact hm e' he'm he'k

theorem foldl_set_keyval_mem (v : String) : ∀ (ps : List Nat)
    (m : List (Nat × String)) (p : Nat), p ∈ ps →
    ∀ e ∈ ps.foldl (fun m p => mapSet m p v) m, e.1 = p → e.2 = v := by
  intro ps
  induction ps with
  | nil => intro m p hp; cases hp
  | cons p0 ps ih =>
    intro m p hp e he hek
    rw [List.foldl_cons] at he
    rcases List.mem_cons.mp hp with rfl | hps
    · exact foldl_set_keyval v ps (mapSet m p v) p (mapSet_keyval m p v) e he hek
    · exact ih (mapSet m p0 v) p hps e he hek

theorem mapSet_eq_self {m : List (Nat × String)} {k : Nat} {v : String}
    (hkv : ∀ e ∈ m, e.1 = k → e.2 = v) (hmem : k ∈ m.map Prod.fst) :
    mapSet m k v = m := by
  unfold mapSet
  rw [if_pos (by
    rw [List.any_eq_true]
    rcases List.mem_map.mp hmem with ⟨p, hp, rfl⟩
    exact ⟨p, hp, by simp⟩)]
  conv_rhs => rw [← List.map_id m]
  apply List.map_congr_left
  intro e he
  by_cases hek : e.1 = k
  · have hev := hkv e he hek
    simp only [hek, beq_self_eq_true, if_pos, id_eq]
    cases e with
    | mk a b =>
      simp only at hek hev
      rw [hek, hev]
  · simp [hek]

theorem foldl_set_idem (v : String) : ∀ (ps : List Nat)
    (m : List (Nat × String)),
    (∀ p ∈ ps, p ∈ m.map Prod.fst ∧ ∀ e ∈ m, e.1 = p → e.2 = v) →
    ps.foldl (fun m p => mapSet m p v) m = m := by
  intro ps
  induction ps with
  | nil => intro m _; rfl
  | cons p ps ih =>
    intro m hm
    rw [List.foldl_cons]
    have h0 := hm p (List.mem_cons_self p ps)
    have hset : mapSet m p v = m := mapSet_eq_self h0.2 h0.1
    rw [hset]
    refine ih m ?_
    intro q hq
    exact hm q (List.mem_cons_of_mem p hq)

/-- C6: adding the same valid node twice in succession leaves the ring state
identical to adding it once. -/
theorem C6_add_idempotent (hash : String → Nat) (h : HashOrbit) (node : String)
    (hv : ValidId node) :
    ∃ h₁ : HashOrbit, HashOrbit.add hash h node = .ok h₁ ∧
      HashOrbit.add hash h₁ node = .ok h₁ := by
  refine ⟨_, add_eq_ok hash h hv, ?_⟩
  rw [add_eq_ok hash _ hv]
  have hring : ringAfterAdd hash
      { ring := ringAfterAdd hash h node,
        sortedKeys := sortKeys (ringAfterAdd hash h node),
        replicas := h.replicas } node = ringAfterAdd hash h node := by
    unfold ringAfterAdd
    simp only
    apply foldl_set_idem
    intro p hp
    constructor
    · exact (fst_foldl_set _ _ _ _).mpr (Or.inl hp)
    · intro e he hek
      exact foldl_set_keyval_mem node _ h.ring p hp e he hek
  rw [hring]

/-! ### Safe removal of absent nodes -/

theorem mapDelete_eq_self {m : List (Nat × String)} {k : Nat}
    (habs : k ∉ m.map Prod.fst) : mapDelete m k = m := by
  unfold mapDelete
  apply List.filter_eq_self.mpr
  intro e he
  simp only [bne_iff_ne, ne_eq]
  intro hek
  exact habs (hek ▸ List.mem_map.mpr ⟨e, he, rfl⟩)

theorem foldl_del_noop : ∀ (ps : List Nat) (m : List (Nat × String)),
    (∀ p ∈ ps, p ∉ m.map Prod.fst) →
    ps.foldl (fun m p => mapDelete m p) m = m := by
  intro ps
  induction ps with
  | nil => intro m _; rfl
  | cons p ps ih =>
    intro m hm
    rw [List.foldl_cons, mapDelete_eq_self (hm p (List.mem_cons_self p ps))]
    refine ih m ?_
    intro q hq
    exact hm q (List.mem_cons_of_mem p hq)

/-- C7: removing a valid node none of whose computed virtual positions is
present in the entry mapping (in particular a node never added) raises no
error and returns the ring state unchanged. -/
theorem C7_remove_absent_noop (hash : String → Nat) (h : HashOrbit)
    (node : String) (hwf : WF h) (hv : ValidId node)
    (habs : ∀ p ∈ positionsOf hash node h.replicas, p ∉ h.ring.map Prod.fst) :
    HashOrbit.remove hash h node = .ok h := by
  rw [remove_eq_ok hash h hv]
  have hring : ringAfterRemove hash h node = h.ring := foldl_del_noop _ _ habs
  rw [hring]
  cases h with
  | mk r sk rep =>
    have hsk : sk = sortKeys r := hwf.1
    simp only [hsk]

/-- C8: each of `add`, `remove`, `get`, `getN` raises the empty-identifier
error exactly when its argument is the empty string and the too-long error
exactly when it exceeds 1000 characters, with the logical parameter name
(`Node identifier` for `add`/`remove`, `Key` for `get`/`getN`) in the
message; valid identifiers (length 1 to 1000) succeed. -/
theorem C8_validation (hash : String → Nat) (h : HashOrbit) (s : String)
    (count : Int) :
    (s = "" →
      HashOrbit.add hash h s = .error "Node identifier cannot be empty" ∧
      HashOrbit.remove hash h s = .error "Node identifier cannot be empty" ∧
      HashOrbit.get hash h s = .error "Key cannot be empty" ∧
      HashOrbit.getN hash h s count = .error "Key cannot be empty") ∧
    (s ≠ "" → s.length > 1000 →
      HashOrbit.add hash h s
        = .error "Node identifier exceeds maximum length of 1000 characters" ∧
      HashOrbit.remove hash h s
        = .error "Node identifier exceeds maximum length of 1000 characters" ∧
      HashOrbit.get hash h s
        = .error "Key exceeds maximum length of 1000 characters" ∧
      HashOrbit.getN hash h s count
        = .error "Key exceeds maximum length of 1000 characters") ∧
    (ValidId s →
      (∃ h', HashOrbit.add hash h s = .ok h') ∧
      (∃ h', HashOrbit.remove hash h s = .ok h') ∧
      (∃ o, HashOrbit.get hash h s = .ok o) ∧
      (∃ l, HashOrbit.getN hash h s count = .ok l)) := by
  refine ⟨?_, ?_, ?_⟩
  · intro hs
    subst hs
    refine ⟨?_, ?_, ?_, ?_⟩
    · rw [add_def, validateIdentifier_empty]
      rfl
    · rw [remove_def, validateIdentifier_empty]
      rfl
    · rw [get_def, validateIdentifier_empty]
      rfl
    · rw [getN_def, validateIdentifier_empty]
      rfl
  · intro hs hlong
    refine ⟨?_, ?_, ?_, ?_⟩
    · rw [add_def, validateIdentifier_long _ hs hlong]
      rfl
    · rw [remove_def, validateIdentifier_long _ hs hlong]
      rfl
    · rw [get_def, validateIdentifier_long _ hs hlong]
      rfl
    · rw [getN_def, validateIdentifier_long _ hs hlong]
      rfl
  · intro hv
    refine ⟨⟨_, add_eq_ok hash h hv⟩, ⟨_, remove_eq_ok hash h hv⟩, ?_, ?_⟩
    · rw [get_def, validateIdentifier_eq_ok _ hv]
      by_cases he : h.ring.length = 0
      · exact ⟨none, by rw [if_pos he]⟩
      · refine ⟨_, by rw [if_neg he]⟩
    · rw [getN_def, validateIdentifier_eq_ok _ hv]
      by_cases he : h.ring.length = 0 ∨ count ≤ 0
      · exact ⟨[], by rw [if_pos he]⟩
      · refine ⟨_, by rw [if_neg he]⟩

/-- C10: a ring constructed with `replicas ≤ 0` stays empty under `add`
(no positions are inserted, the state is unchanged), has `size` 0, and
`get` returns the absent result for every valid key. -/
theorem C10_nonpositive_replicas (hash : String → Nat) (r : Int) (hr : r ≤ 0)
    (node key : String) (hvn : ValidId node) (hvk : ValidId key) :
    HashOrbit.add hash (HashOrbit.new (some r)) node = .ok (HashOrbit.new (some r)) ∧
    (HashOrbit.new (some r)).size = 0 ∧
    HashOrbit.get hash (HashOrbit.new (some r)) key = .ok none := by
  have hpos : positionsOf hash node (HashOrbit.new (some r)).replicas = [] := by
    unfold positionsOf HashOrbit.new
    simp only [Option.getD_some]
    rw [Int.toNat_of_nonpos hr]
    rfl
  refine ⟨?_, ?_, ?_⟩
  · rw [add_eq_ok hash _ hvn]
    have hring : ringAfterAdd hash (HashOrbit.new (some r)) node = [] := by
      unfold ringAfterAdd
      rw [hpos]
      rfl
    rw [hring]
    rfl
  · rfl
  · rw [get_def, validateIdentifier_eq_ok _ hvk]
    rfl

/-! ### Round-trip machinery -/

theorem mem_fst_iff_mapGet {m : List (Nat × String)} {q : Nat} :
    q ∈ m.map Prod.fst ↔ ∃ v, mapGet m q = some v := by
  constructor
  · exact mapGet_some_of_mem_fst
  · intro ⟨v, hv⟩
    exact mem_fst_of_mapGet_some hv

/-- The pure effect of a successful `add`. -/
def addPure (hash : String → Nat) (h : HashOrbit) (node : String) : HashOrbit :=
  { ring := ringAfterAdd hash h node,
    sortedKeys := sortKeys (ringAfterAdd hash h node),
    replicas := h.replicas }

theorem add_eq_ok_addPure (hash : String → Nat) (h : HashOrbit) {node : String}
    (hv : ValidId node) : HashOrbit.add hash h node = .ok (addPure hash h node) :=
  add_eq_ok hash h hv

theorem foldlM_add_eq (hash : String → Nat) : ∀ (ns : List String) (h : HashOrbit),
    (∀ n ∈ ns, ValidId n) →
    ns.foldlM (fun r n => HashOrbit.add hash r n) h
      = .ok (ns.foldl (addPure hash) h) := by
  intro ns
  induction ns with
  | nil => intro h _; rfl
  | cons n ns ih =>
    intro h hv
    rw [List.foldlM_cons, add_eq_ok_addPure hash h (hv n (List.mem_cons_self n ns))]
    show ns.foldlM (fun r n => HashOrbit.add hash r n) (addPure hash h n) = _
    rw [ih (addPure hash h n) (fun n' hn' => hv n' (List.mem_cons_of_mem n hn'))]
    rfl

theorem build_replicas (hash : String → Nat) : ∀ (ns : List String) (h : HashOrbit),
    (ns.foldl (addPure hash) h).replicas = h.replicas := by
  intro ns
  induction ns with
  | nil => intro h; rfl
  | cons n ns ih =>
    intro h
    rw [List.foldl_cons, ih]
    rfl

theorem wf_addPure {hash : String → Nat} {h : HashOrbit} {node : String}
    (hwf : WF h) (hv : ValidId node) : WF (addPure hash h node) :=
  wf_add hwf (add_eq_ok_addPure hash h hv)

theorem build_wf (hash : String → Nat) : ∀ (ns : List String) (h : HashOrbit),
    WF h → (∀ n ∈ ns, ValidId n) → WF (ns.foldl (addPure hash) h) := by
  intro ns
  induction ns with
  | nil => intro h hwf _; exact hwf
  | cons n ns ih =>
    intro h hwf hv
    rw [List.foldl_cons]
    exact ih _ (wf_addPure hwf (hv n (List.mem_cons_self n ns)))
      (fun n' hn' => hv n' (List.mem_cons_of_mem n hn'))

theorem addPure_mapGet (hash : String → Nat) (h : HashOrbit) (node : String)
    (p : Nat) :
    mapGet (addPure hash h node).ring p
      = if p ∈ positionsOf hash node h.replicas then some node
        else mapGet h.ring p := by
  unfold addPure ringAfterAdd
  exact mapGet_foldl_set _ _ _ _

theorem build_mapGet_miss (hash : String → Nat) : ∀ (ns : List String)
    (h : HashOrbit) (p : Nat),
    (∀ n ∈ ns, p ∉ positionsOf hash n h.replicas) →
    mapGet ((ns.foldl (addPure hash) h).ring) p = mapGet h.ring p := by
  intro ns
  induction ns with
  | nil => intro h p _; rfl
  | cons n ns ih =>
    intro h p hmiss
    rw [List.foldl_cons]
    have hrep : (addPure hash h n).replicas = h.replicas := rfl
    rw [ih (addPure hash h n) p (by
      intro n' hn'
      rw [hrep]
      exact hmiss n' (List.mem_cons_of_mem n hn'))]
    rw [addPure_mapGet, if_neg (hmiss n (List.mem_cons_self n ns))]

theorem build_mapGet_hit (hash : String → Nat) : ∀ (ns : List String)
    (h : HashOrbit) (n : String) (p : Nat), n ∈ ns →
    p ∈ positionsOf hash n h.replicas →
    (∀ n₂ ∈ ns, p ∈ positionsOf hash n₂ h.replicas → n₂ = n) →
    mapGet ((ns.foldl (addPure hash) h).ring) p = some n := by
  intro ns
  induction ns with
  | nil => intro h n p hn; cases hn
  | cons n0 ns ih =>
    intro h n p hn hp huniq
    rw [List.foldl_cons]
    have hrep : (addPure hash h n0).replicas = h.replicas := rfl
    by_cases hin : ∃ n₂ ∈ ns, p ∈ positionsOf hash n₂ h.replicas
    · obtain ⟨n₂, hn₂, hpn₂⟩ := hin
      have hn₂n : n₂ = n := huniq n₂ (List.mem_cons_of_mem n0 hn₂) hpn₂
      subst hn₂n
      exact ih (addPure hash h n0) n₂ p hn₂ (by rw [hrep]; exact hp)
        (by
          intro n₃ hn₃ hpn₃
          rw [hrep] at hpn₃
          exact huniq n₃ (List.mem_cons_of_mem n0 hn₃) hpn₃)
    · push_neg at hin
      rw [build_mapGet_miss hash ns (addPure hash h n0) p (by
        intro n' hn'
        rw [hrep]
        exact hin n' hn')]
      have hnn0 : n = n0 := by
        rcases List.mem_cons.mp hn with rfl | hns
        · rfl
        · exact absurd hp (hin n hns)
      subst hnn0
      rw [addPure_mapGet, if_pos hp]

theorem sortKeys_eq_of_same_keys {m₁ m₂ : List (Nat × String)}
    (h₁ : (m₁.map Prod.fst).Nodup) (h₂ : (m₂.map Prod.fst).Nodup)
    (hmem : ∀ q, q ∈ m₁.map Prod.fst ↔ q ∈ m₂.map Prod.fst) :
    sortKeys m₁ = sortKeys m₂ := by
  classical
  have hperm : (m₁.map Prod.fst).Perm (m₂.map Prod.fst) := by
    apply List.perm_of_nodup_nodup_toFinset_eq h₁ h₂
    ext q
    rw [List.mem_toFinset, List.mem_toFinset]
    exact hmem q
  unfold sortKeys
  apply List.eq_of_perm_of_sorted
    (((sortKeys_perm m₁).trans hperm).trans (sortKeys_perm m₂).symm)
    (sortKeys_sorted m₁) (sortKeys_sorted m₂)

theorem ring_length_eq_of_same_keys {m₁ m₂ : List (Nat × String)}
    (h₁ : (m₁.map Prod.fst).Nodup) (h₂ : (m₂.map Prod.fst).Nodup)
    (hmem : ∀ q, q ∈ m₁.map Prod.fst ↔ q ∈ m₂.map Prod.fst) :
    m₁.length = m₂.length := by
  classical
  have hperm : (m₁.map Prod.fst).Perm (m₂.map Prod.fst) := by
    apply List.perm_of_nodup_nodup_toFinset_eq h₁ h₂
    ext q
    rw [List.mem_toFinset, List.mem_toFinset]
    exact hmem q
  have := hperm.length_eq
  simpa using this

theorem mem_snd_iff_mapGet {m : List (Nat × String)}
    (hnd : (m.map Prod.fst).Nodup) (v : String) :
    v ∈ m.map Prod.snd ↔ ∃ q, mapGet m q = some v := by
  constructor
  · intro hv
    rcases List.mem_map.mp hv with ⟨pv, hpv, hpve⟩
    refine ⟨pv.1, ?_⟩
    rw [← hpve]
    exact mapGet_of_mem_nodup hnd (by
      have : pv = (pv.1, pv.2) := rfl
      rw [← this]
      exact hpv)
  · intro ⟨q, hq⟩
    exact mapGet_mem_snd hq

theorem getNLoop_congr {r₁ r₂ : List (Nat × String)}
    (hmg : ∀ p, mapGet r₁ p = mapGet r₂ p) :
    ∀ (fuel : Nat) (keys : List Nat) (count : Int) (idx : Nat)
      (seen result : List String),
      getNLoop r₁ keys count idx seen result fuel
        = getNLoop r₂ keys count idx seen result fuel := by
  intro fuel
  induction fuel with
  | zero => intro keys count idx seen result; rfl
  | succ fuel ih =>
    intro keys count idx seen result
    rw [getNLoop, getNLoop]
    by_cases hcnt : (result.length : Int) < count
    · simp only [if_pos hcnt, hmg]
      cases mapGet r₂ (keys.getD (if idx ≥ keys.length then 0 else idx) 0) with
      | none => exact ih _ _ _ _ _
      | some node =>
        by_cases hnode : node ≠ "" ∧ node ∉ seen
        · simp only [if_pos hnode]
          exact ih _ _ _ _ _
        · simp only [if_neg hnode]
          exact ih _ _ _ _ _
    · simp only [if_neg hcnt]

/-- Two states with the same sorted index, entry function, and entry count
answer `get` and `getN` identically for every key and count. -/
theorem get_getN_congr (hash : String → Nat) {h₁ h₂ : HashOrbit}
    (hsk : h₁.sortedKeys = h₂.sortedKeys)
    (hlen : h₁.ring.length = h₂.ring.length)
    (hmg : ∀ p, mapGet h₁.ring p = mapGet h₂.ring p) :
    (∀ key, HashOrbit.get hash h₁ key = HashOrbit.get hash h₂ key) ∧
    (∀ key count, HashOrbit.getN hash h₁ key count
        = HashOrbit.getN hash h₂ key count) := by
  constructor
  · intro key
    rw [get_def, get_def, hsk, hlen, hmg]
  · intro key count
    rw [getN_def, getN_def, hsk, hlen,
      getNLoop_congr hmg h₂.sortedKeys.length h₂.sortedKeys count
        (binarySearch h₂.sortedKeys (hash key)) [] []]

/-- Canonical collision-free state: every present node owns every one of its
computed virtual positions, and every entry is one of its own node's
computed positions.  This is exactly the shape of any state produced by
`add`/`remove` sequences when distinct nodes' virtual keys never hash to the
same position (the spec's standing no-collision assumption). -/
def Canon (hash : String → Nat) (h : HashOrbit) : Prop :=
  (∀ n ∈ h.nodes, ∀ i, i < h.replicas.toNat →
      mapGet h.ring (hash (vkey n i)) = some n) ∧
  (∀ pv ∈ h.ring, ∃ i, i < h.replicas.toNat ∧ pv.1 = hash (vkey pv.2 i))

instance (hash : String → Nat) : DecidablePred (Canon hash) := fun h => by
  unfold Canon
  infer_instance

theorem mem_positionsOf {hash : String → Nat} {node : String} {r : Int}
    {p : Nat} : p ∈ positionsOf hash node r ↔
      ∃ i, i < r.toNat ∧ p = hash (vkey node i) := by
  unfold positionsOf
  constructor
  · intro hp
    rcases List.mem_map.mp hp with ⟨i, hi, rfl⟩
    exact ⟨i, List.mem_range.mp hi, rfl⟩
  · intro ⟨i, hi, hpe⟩
    exact List.mem_map.mpr ⟨i, List.mem_range.mpr hi, hpe.symm⟩

theorem canon_build_mapGet {hash : String → Nat} {h : HashOrbit}
    (hc : Canon hash h) (p : Nat) :
    mapGet ((h.nodes.foldl (addPure hash)
        (HashOrbit.new (some h.replicas))).ring) p
      = mapGet h.ring p := by
  have hrep : (HashOrbit.new (some h.replicas)).replicas = h.replicas := rfl
  cases hmg : mapGet h.ring p with
  | none =>
    rw [build_mapGet_miss hash h.nodes _ p (by
      intro n hn hp
      rw [hrep] at hp
      rcases mem_positionsOf.mp hp with ⟨i, hi, rfl⟩
      have hcn := hc.1 n hn i hi
      rw [hmg] at hcn
      cases hcn)]
    rfl
  | some v =>
    have hpv : (p, v) ∈ h.ring := mapGet_eq_some_mem hmg
    obtain ⟨i, hi, hpe⟩ := hc.2 (p, v) hpv
    have hvnodes : v ∈ h.nodes :=
      (mem_dedupFirst _ v).mpr (List.mem_map.mpr ⟨(p, v), hpv, rfl⟩)
    have hp : p ∈ positionsOf hash v (HashOrbit.new (some h.replicas)).replicas := by
      rw [hrep]
      exact mem_positionsOf.mpr ⟨i, hi, hpe⟩
    rw [build_mapGet_hit hash h.nodes _ v p hvnodes hp (by
      intro n₂ hn₂ hp₂
      rw [hrep] at hp₂
      rcases mem_positionsOf.mp hp₂ with ⟨j, hj, hpe₂⟩
      have h2 := hc.1 n₂ hn₂ j hj
      rw [← hpe₂, hmg] at h2
      exact (Option.some.inj h2).symm)]

/-- C4 (amended with the spec's no-collision assumption): for every
well-formed ring state whose entries are exactly its nodes' computed virtual
positions with no cross-node position collisions — the shape every
`add`/`remove` history produces when distinct virtual keys never collide —
`fromJSON(toJSON(R))` succeeds and yields a ring that agrees with `R` on
`get` and `getN` for every key, and whose `nodes` and `size` agree with
`R`'s as sets. -/
theorem C4_roundtrip_noCollision (hash : String → Nat) (h : HashOrbit)
    (hwf : WF h) (hc : Canon hash h) :
    ∃ h' : HashOrbit,
      HashOrbit.fromJSON hash (HashOrbit.toJSON h) = .ok h' ∧
      (∀ key, HashOrbit.get hash h' key = HashOrbit.get hash h key) ∧
      (∀ key count, HashOrbit.getN hash h' key count
          = HashOrbit.getN hash h key count) ∧
      (∀ v, v ∈ h'.nodes ↔ v ∈ h.nodes) ∧
      h'.size = h.size := by
  classical
  have hvalid : ∀ n ∈ h.nodes, ValidId n := by
    intro n hn
    have hv : n ∈ h.ring.map Prod.snd := (mem_dedupFirst _ n).mp hn
    rcases List.mem_map.mp hv with ⟨pv, hpv, hpve⟩
    rw [← hpve]
    exact hwf.2.2 pv hpv
  set B := h.nodes.foldl (addPure hash) (HashOrbit.new (some h.replicas)) with hB
  have hBwf : WF B := build_wf hash h.nodes _ (wf_new _) hvalid
  have hBmg : ∀ p, mapGet B.ring p = mapGet h.ring p := canon_build_mapGet hc
  have hkeys : ∀ q, q ∈ B.ring.map Prod.fst ↔ q ∈ h.ring.map Prod.fst := by
    intro q
    rw [mem_fst_iff_mapGet, mem_fst_iff_mapGet]
    constructor
    · intro ⟨v, hv⟩; exact ⟨v, by rw [← hBmg]; exact hv⟩
    · intro ⟨v, hv⟩; exact ⟨v, by rw [hBmg]; exact hv⟩
  have hsk : B.sortedKeys = h.sortedKeys := by
    rw [hBwf.1, hwf.1]
    exact sortKeys_eq_of_same_keys hBwf.2.1 hwf.2.1 hkeys
  have hlen : B.ring.length = h.ring.length :=
    ring_length_eq_of_same_keys hBwf.2.1 hwf.2.1 hkeys
  have hvals : ∀ v, v ∈ B.ring.map Prod.snd ↔ v ∈ h.ring.map Prod.snd := by
    intro v
    rw [mem_snd_iff_mapGet hBwf.2.1, mem_snd_iff_mapGet hwf.2.1]
    constructor
    · intro ⟨q, hq⟩; exact ⟨q, by rw [← hBmg]; exact hq⟩
    · intro ⟨q, hq⟩; exact ⟨q, by rw [hBmg]; exact hq⟩
  have hnodes : ∀ v, v ∈ B.nodes ↔ v ∈ h.nodes := by
    intro v
    unfold HashOrbit.nodes
    rw [mem_dedupFirst, mem_dedupFirst]
    exact hvals v
  have hcongr := get_getN_congr hash hsk hlen hBmg
  refine ⟨B, ?_, hcongr.1, hcongr.2, hnodes, ?_⟩
  · unfold HashOrbit.fromJSON HashOrbit.toJSON
    exact foldlM_add_eq hash h.nodes _ hvalid
  · unfold HashOrbit.size
    have hperm : B.nodes.Perm h.nodes := by
      apply List.perm_of_nodup_nodup_toFinset_eq (nodup_dedupFirst _)
        (nodup_dedupFirst _)
      ext v
      rw [List.mem_toFinset, List.mem_toFinset]
      exact hnodes v
    exact hperm.length_eq


/-! ### A colliding hash breaks the unconditional round-trip -/

/-- A deterministic 32-bit hash whose virtual keys collide across two
distinct nodes: `hX "a:1" = hX "b:0" = 5`. -/
def hX : String → Nat := fun s =>
  if s = "a:0" then 1
  else if s = "a:1" then 5
  else if s = "b:0" then 5
  else if s = "b:1" then 9
  else if s = "c:0" then 3
  else if s = "c:1" then 7
  else if s = "k" then 4
  else 0

/-- The state reached under `hX` by add a, add b, add c, remove a:
removing `a` deletes position 5, which the collision had handed to `b`. -/
def RX : HashOrbit :=
  { ring := [(9, "b"), (3, "c"), (7, "c")], sortedKeys := [3, 7, 9], replicas := 2 }

/-- The ring `fromJSON (toJSON RX)` rebuilds: position 5 is restored to `b`. -/
def RX' : HashOrbit :=
  { ring := [(5, "b"), (9, "b"), (3, "c"), (7, "c")],
    sortedKeys := [3, 5, 7, 9], replicas := 2 }

/-- C4 counterexample: under a position-colliding hash, a reachable ring
state `RX` (add a, add b, add c, remove a, where the virtual keys `a:1` and
`b:0` collide at position 5) disagrees with its serialization round-trip on
`get "k"`: the original returns node `c`, the rebuilt ring returns node `b`. -/
theorem C4_roundtrip_counterexample :
    Reachable hX RX ∧
    HashOrbit.fromJSON hX (HashOrbit.toJSON RX) = .ok RX' ∧
    HashOrbit.get hX RX "k" = .ok (some "c") ∧
    HashOrbit.get hX RX' "k" = .ok (some "b") ∧
    HashOrbit.get hX RX "k" ≠ HashOrbit.get hX RX' "k" := by
  have hreach : Reachable hX RX := by
    have h1 : HashOrbit.add hX (HashOrbit.new (some 2)) "a"
        = .ok ⟨[(1, "a"), (5, "a")], [1, 5], 2⟩ := rfl
    have h2 : HashOrbit.add hX ⟨[(1, "a"), (5, "a")], [1, 5], 2⟩ "b"
        = .ok ⟨[(1, "a"), (5, "b"), (9, "b")], [1, 5, 9], 2⟩ := rfl
    have h3 : HashOrbit.add hX ⟨[(1, "a"), (5, "b"), (9, "b")], [1, 5, 9], 2⟩ "c"
        = .ok ⟨[(1, "a"), (5, "b"), (9, "b"), (3, "c"), (7, "c")],
               [1, 3, 5, 7, 9], 2⟩ := rfl
    have h4 : HashOrbit.remove hX
        ⟨[(1, "a"), (5, "b"), (9, "b"), (3, "c"), (7, "c")], [1, 3, 5, 7, 9], 2⟩ "a"
        = .ok RX := rfl
    exact Reachable.remove "a"
      (Reachable.add "c" (Reachable.add "b"
        (Reachable.add "a" (Reachable.new (some 2)) h1) h2) h3) h4
  have hg1 : HashOrbit.get hX RX "k" = .ok (some "c") := by
    rw [get_eq_ok hX RX (by decide) (by decide)]
    unfold startIdx
    rw [binarySearch_eq_lowerBoundSpec (hX "k")
      (show RX.sortedKeys.Sorted (· ≤ ·) by decide)]
    rfl
  have hg2 : HashOrbit.get hX RX' "k" = .ok (some "b") := by
    rw [get_eq_ok hX RX' (by decide) (by decide)]
    unfold startIdx
    rw [binarySearch_eq_lowerBoundSpec (hX "k")
      (show RX'.sortedKeys.Sorted (· ≤ ·) by decide)]
    rfl
  refine ⟨hreach, rfl, hg1, hg2, ?_⟩
  rw [hg1, hg2]
  intro hcon
  have hvv := Option.some.inj (Except.ok.inj hcon)
  exact absurd hvv (by decide)

/-! ### Concrete instances -/

/-- A simple deterministic stand-in for the opaque hash, for concrete
instances. -/
def hLen : String → Nat := String.length

/-- The one-node ring `add "n1"` produces under `hLen` with one replica:
`hLen "n1:0" = 4`. -/
def RW : HashOrbit := { ring := [(4, "n1")], sortedKeys := [4], replicas := 1 }

theorem C1_witness :
    WF RW ∧ RW.ring ≠ [] ∧ ValidId "k" ∧
    (∃ n : String,
      HashOrbit.get hLen RW "k" = .ok (some n) ∧
      mapGet RW.ring (RW.sortedKeys.getD
        (if lowerBoundSpec RW.sortedKeys (hLen "k") ≥ RW.sortedKeys.length then 0
         else lowerBoundSpec RW.sortedKeys (hLen "k")) 0) = some n) :=
  ⟨by decide, by decide, by decide,
    C1_get_lowerBound_lookup hLen RW "k" (by decide) (by decide) (by decide)⟩

theorem C2_witness :
    WF RW ∧ RW.ring ≠ [] ∧ (1 : Int) ≤ 2 ∧ ValidId "k" ∧
    (∃ (l : List String) (n : String),
      HashOrbit.getN hLen RW "k" 2 = .ok l ∧
      HashOrbit.get hLen RW "k" = .ok (some n) ∧
      l.head? = some n) :=
  ⟨by decide, by decide, by decide, by decide,
    C2_getN_first_eq_get hLen RW "k" 2 (by decide) (by decide) (by decide)
      (by decide)⟩

theorem C3_witness :
    WF RW ∧ ValidId "k" ∧
    (∃ l : List String,
      HashOrbit.getN hLen RW "k" 3 = .ok l ∧ l.Nodup ∧
      (((RW.size : Int) < 3) →
        (∀ v, v ∈ l ↔ v ∈ RW.nodes) ∧ l.length = RW.size)) :=
  ⟨by decide, by decide,
    C3_getN_unique_complete hLen RW "k" 3 (by decide) (by decide)⟩

theorem C4_witness :
    WF RW ∧ Canon hLen RW ∧
    (∃ h' : HashOrbit,
      HashOrbit.fromJSON hLen (HashOrbit.toJSON RW) = .ok h' ∧
      (∀ key, HashOrbit.get hLen h' key = HashOrbit.get hLen RW key) ∧
      (∀ key count, HashOrbit.getN hLen h' key count
          = HashOrbit.getN hLen RW key count) ∧
      (∀ v, v ∈ h'.nodes ↔ v ∈ RW.nodes) ∧
      h'.size = RW.size) :=
  ⟨by decide, by decide,
    C4_roundtrip_noCollision hLen RW (by decide) (by decide)⟩

theorem C5_witness :
    Reachable hLen RW ∧
    (RW.sortedKeys.Sorted (· < ·) ∧
     (∀ k, k ∈ RW.sortedKeys ↔ k ∈ RW.ring.map Prod.fst) ∧
     RW.nodes.Nodup ∧
     (∀ v, v ∈ RW.nodes ↔ v ∈ RW.ring.map Prod.snd)) :=
  have hreach : Reachable hLen RW :=
    Reachable.add "n1" (Reachable.new (some 1)) rfl
  ⟨hreach, C5_index_and_nodes_invariant hLen RW hreach⟩

theorem C6_witness :
    ValidId "n1" ∧
    (∃ h₁ : HashOrbit, HashOrbit.add hLen RW "n1" = .ok h₁ ∧
      HashOrbit.add hLen h₁ "n1" = .ok h₁) :=
  ⟨by decide, C6_add_idempotent hLen RW "n1" (by decide)⟩

theorem C7_witness :
    WF RW ∧ ValidId "x" ∧
    (∀ p ∈ positionsOf hLen "x" RW.replicas, p ∉ RW.ring.map Prod.fst) ∧
    HashOrbit.remove hLen RW "x" = .ok RW :=
  ⟨by decide, by decide, by decide,
    C7_remove_absent_noop hLen RW "x" (by decide) (by decide) (by decide)⟩

/-- A 1001-character identifier. -/
def longId : String := String.mk (List.replicate 1001 'a')

/-- A 1000-character identifier (the maximum valid length). -/
def maxId : String := String.mk (List.replicate 1000 'a')

set_option maxRecDepth 100000 in
theorem C8_witness :
    (HashOrbit.add hLen RW "" = .error "Node identifier cannot be empty" ∧
     HashOrbit.remove hLen RW "" = .error "Node identifier cannot be empty" ∧
     HashOrbit.get hLen RW "" = .error "Key cannot be empty" ∧
     HashOrbit.getN hLen RW "" 2 = .error "Key cannot be empty") ∧
    (HashOrbit.add hLen RW longId
        = .error "Node identifier exceeds maximum length of 1000 characters" ∧
     HashOrbit.get hLen RW longId
        = .error "Key exceeds maximum length of 1000 characters") ∧
    (∃ h', HashOrbit.add hLen RW maxId = .ok h') ∧
    (∃ h', HashOrbit.add hLen RW "a" = .ok h') ∧
    (∃ o, HashOrbit.get hLen RW maxId = .ok o) := by
  refine ⟨(C8_validation hLen RW "" 2).1 rfl, ?_, ?_, ?_, ?_⟩
  · have hl := (C8_validation hLen RW longId 2).2.1 (by decide) (by decide)
    exact ⟨hl.1, hl.2.2.1⟩
  · exact ((C8_validation hLen RW maxId 2).2.2 (by decide)).1
  · exact ((C8_validation hLen RW "a" 2).2.2 (by decide)).1
  · exact ((C8_validation hLen RW maxId 2).2.2 (by decide)).2.2.1

theorem C9_witness :
    ValidId "k" ∧
    (HashOrbit.new (some 1)).ring = [] ∧
    HashOrbit.get hLen (HashOrbit.new (some 1)) "k" = .ok none ∧
    HashOrbit.getN hLen (HashOrbit.new (some 1)) "k" 5 = .ok [] ∧
    HashOrbit.getN hLen RW "k" (-1) = .ok [] := by
  refine ⟨by decide, rfl, ?_, ?_, ?_⟩
  · exact (C9_empty_and_nonpositive hLen (HashOrbit.new (some 1)) "k" 5
      (by decide)).1 rfl
  · exact (C9_empty_and_nonpositive hLen (HashOrbit.new (some 1)) "k" 5
      (by decide)).2 (Or.inl rfl)
  · exact (C9_empty_and_nonpositive hLen RW "k" (-1) (by decide)).2
      (Or.inr (by decide))

theorem C10_witness :
    (-1 : Int) ≤ 0 ∧ ValidId "n1" ∧ ValidId "k" ∧
    (HashOrbit.add hLen (HashOrbit.new (some (-1))) "n1"
        = .ok (HashOrbit.new (some (-1))) ∧
     (HashOrbit.new (some (-1))).size = 0 ∧
     HashOrbit.get hLen (HashOrbit.new (some (-1))) "k" = .ok none) :=
  ⟨by decide, by decide, by decide,
    C10_nonpositive_replicas hLen (-1) (by decide) "n1" "k" (by decide)
      (by decide)⟩
